import Mathlib

set_option maxHeartbeats 1000000

namespace CoWork

/-! Shallow embedding of the CoWork-app task-orchestration core:
the Planner (`src/lib/agent/planner.ts`), the Parallel Executor
(`src/lib/agent/executor.ts`), the Reflector (`src/lib/agent/reflector.ts`),
the RLM Executor (`src/lib/rlm/executor.ts`) and the Data Chunker
(`src/lib/rlm/chunking.ts`).  JavaScript strings are modelled as `List Char`
where character-level slicing matters and as `String` elsewhere; JS `Map`s
and plain objects become association lists; in-place mutation of task
statuses becomes explicit state passing; `async` scheduling becomes a
deterministic loop parametrised by oracles for tool outcomes and completion
order; thrown exceptions become `Except`. -/

/-- JS `x || default` on an optional numeric config field: `undefined` and
`0` are falsy, so both select the default. -/
def jsOr (v : Option Nat) (d : Nat) : Nat :=
  match v with
  | none => d
  | some k => if k = 0 then d else k

/-- Left brace character, written via its code point. -/
def lbrace : Char := Char.ofNat 123

/-- Right brace character, written via its code point. -/
def rbrace : Char := Char.ofNat 125

/-! ## Data model (`src/lib/agent/types.ts`) -/

/-- Task status, from `TaskStatus` in `agent/types.ts`. -/
inductive TStatus where
  | pending
  | in_progress
  | completed
  | failed
  | skipped
deriving DecidableEq, Repr

/-- JSON values, the shape of parsed backend output and task argument bags.
Numbers are rationals so that fractional confidence values are exact. -/
inductive Json where
  | str (s : String)
  | num (n : ℚ)
  | bool (b : Bool)
  | null
  | arr (elems : List Json)
  | obj (fields : List (String × Json))

/-- Task record from `agent/types.ts` (timestamps, retries and metadata are
dropped: no verified claim mentions them, and they do not feed back into
control flow at the granularity modelled here). The mutable `status`/`error`
fields are snapshots; the executor tracks their evolution in its own state. -/
structure Task where
  id : String
  description : String
  status : TStatus := .pending
  tool : Option String := none
  args : List (String × Json) := []
  dependencies : List String := []
  result : Option Json := none
  error : Option String := none

/-- Plan strategy from `agent/types.ts`. -/
inductive PlanStrategy where
  | sequential
  | parallel
  | mixed
deriving DecidableEq, Repr

/-- Plan status from `agent/types.ts`. -/
inductive PlanStatus where
  | planning
  | executing
  | completedPlan
  | failedPlan
deriving DecidableEq, Repr

/-- TaskPlan record from `agent/types.ts` (`createdAt` dropped: a wall-clock
constant never read by the core). -/
structure TaskPlan where
  id : String
  originalRequest : String
  tasks : List Task
  strategy : PlanStrategy
  status : PlanStatus := .planning
  completedTasks : Nat := 0
  totalTasks : Nat := 0

/-- Ids of a task list, in order. -/
def idsOf (l : List Task) : List String := l.map Task.id

/-! ## Data Chunker (`src/lib/rlm/chunking.ts`) -/

/-- Chunking method tag from `ChunkingStrategy`. The `custom` variant
(caller-supplied splitting function) is omitted: it is not exercised by the
RLM Executor and no claim refers to it. -/
inductive ChunkMethod where
  | fixedSize
  | semantic
  | structural
deriving DecidableEq, Repr

/-- Chunking strategy configuration (`ChunkingStrategy` in `ai/types.ts`). -/
structure ChunkingStrategy where
  method : ChunkMethod
  chunkSize : Option Nat := none
  overlap : Option Nat := none
  separator : Option (List Char) := none

/-- Loop body of `fixedSizeChunking`: `while (start < text.length)` push
`text.slice(start, end)` with `end = min(start + chunkSize, text.length)`,
then `start = end - overlap`, breaking once `start >= text.length - overlap`.
Fuel makes the loop total; `text.length + 1` is proved sufficient when
`overlap = 0`. -/
def fixedSizeLoop (text : List Char) (chunkSize overlap : Nat) :
    Nat → Nat → List (List Char)
  | 0, _ => []
  | fuel+1, start =>
    if start < text.length then
      let e := min (start + chunkSize) text.length
      let chunk := (text.drop start).take (e - start)
      let start' := e - overlap
      if text.length - overlap ≤ start' then [chunk]
      else chunk :: fixedSizeLoop text chunkSize overlap fuel start'
    else []

/-- Fixed-size chunking with optional overlap
(`DataChunker.fixedSizeChunking`). -/
def fixedSizeChunking (text : List Char) (chunkSize overlap : Nat) :
    List (List Char) :=
  fixedSizeLoop text chunkSize overlap (text.length + 1) 0

/-- Whitespace test matching JS `trim` for the characters this model uses. -/
def isWs (c : Char) : Bool := c = ' ' ∨ c = '\n' ∨ c = '\t' ∨ c = '\r'

/-- JS `String.prototype.trim`. -/
def jsTrim (s : List Char) : List Char :=
  (s.dropWhile isWs).reverse.dropWhile isWs |>.reverse

/-- Length of `dropWhile` never exceeds the input length. -/
theorem dropWhile_length_le (p : α → Bool) :
    ∀ l : List α, (l.dropWhile p).length ≤ l.length
  | [] => by simp [List.dropWhile]
  | a :: l => by
    simp only [List.dropWhile]
    split
    · exact Nat.le_succ_of_le (dropWhile_length_le p l)
    · simp

/-- Sentence splitter: maximal runs matching `[^.!?]+[.!?]+`, as in
`semanticChunking`'s regex. `acc` carries the current run of non-terminator
characters; on seeing a terminator the whole terminator run (head included)
is consumed. -/
def splitSentences : List Char → List Char → List (List Char)
  | [], _ => []
  | c :: rest, acc =>
    if c = '.' ∨ c = '!' ∨ c = '?' then
      let term := c :: rest.takeWhile (fun d => d = '.' ∨ d = '!' ∨ d = '?')
      let rest' := rest.dropWhile (fun d => d = '.' ∨ d = '!' ∨ d = '?')
      if acc.isEmpty then splitSentences rest' []
      else (acc ++ term) :: splitSentences rest' []
    else splitSentences rest (acc ++ [c])
termination_by l _ => l.length
decreasing_by
  · exact Nat.lt_succ_of_le (dropWhile_length_le _ rest)
  · exact Nat.lt_succ_of_le (dropWhile_length_le _ rest)
  · simp

/-- Accumulation loop of `semanticChunking`. -/
def semanticAccum (targetSize : Nat) :
    List (List Char) → List Char → List (List Char)
  | [], current => if current.length > 0 then [jsTrim current] else []
  | s :: ss, current =>
    if targetSize < current.length + s.length ∧ 0 < current.length then
      jsTrim current :: semanticAccum targetSize ss s
    else
      semanticAccum targetSize ss (current ++ s)

/-- Semantic chunking (`DataChunker.semanticChunking`): split into sentences,
greedily pack them up to `targetSize`. -/
def semanticChunking (text : List Char) (targetSize : Nat) : List (List Char) :=
  let sentences := splitSentences text []
  let sentences := if sentences.isEmpty then [text] else sentences
  semanticAccum targetSize sentences []

/-- JS `text.split(separator)`. -/
def jsSplit (sep : List Char) : List Char → List (List Char) :=
  go []
where
  go (acc : List Char) : List Char → List (List Char)
    | [] => [acc]
    | c :: rest =>
      if sep ≠ [] ∧ sep.isPrefixOf (c :: rest) then
        acc :: go [] ((c :: rest).drop sep.length)
      else
        go (acc ++ [c]) rest
  termination_by l => l.length
  decreasing_by
    · have hs : 1 ≤ sep.length := by
        rename_i h; rcases h with ⟨h1, _⟩
        cases sep with
        | nil => simp at h1
        | cons a l => simp
      simp
      omega
    · simp

/-- Structural chunking (`DataChunker.structuralChunking`): split on the
separator, trim, drop empties. -/
def structuralChunking (text : List Char) (sep : List Char) : List (List Char) :=
  ((jsSplit sep text).map jsTrim).filter (fun c => c.length > 0)

/-- String chunking dispatch (`DataChunker.chunkString`). Defaults follow the
JS `||` falsy-or semantics. -/
def chunkString (strategy : ChunkingStrategy) (data : List Char) :
    List (List Char) :=
  match strategy.method with
  | .fixedSize =>
      fixedSizeChunking data (jsOr strategy.chunkSize 1000)
        (jsOr strategy.overlap 0)
  | .semantic => semanticChunking data (jsOr strategy.chunkSize 1000)
  | .structural =>
      structuralChunking data (strategy.separator.getD ('\n' :: ['\n']))

/-- Array chunking (`DataChunker.chunkArray`): slices of
`chunkSize = strategy.chunkSize || 10`. Fuel totalises the JS `for` loop;
`data.length + 1` is sufficient since the constructor default keeps the step
positive. -/
def chunkArrayLoop (chunkSize : Nat) : Nat → List α → List (List α)
  | 0, _ => []
  | _, [] => []
  | fuel+1, l => l.take chunkSize :: chunkArrayLoop chunkSize fuel (l.drop chunkSize)

/-- Array chunking entry (`DataChunker.chunkArray`). -/
def chunkArray (data : List α) (strategy : ChunkingStrategy) : List (List α) :=
  chunkArrayLoop (jsOr strategy.chunkSize 10) (data.length + 1) data

/-- Correctness of the fixed-size loop at overlap 0: with enough fuel, the
chunks concatenate to the unconsumed suffix and each chunk fits the size
bound. -/
theorem fixedSizeLoop_spec (text : List Char) (n : Nat) (hn : 1 ≤ n) :
    ∀ fuel start, text.length - start + 1 ≤ fuel →
      (fixedSizeLoop text n 0 fuel start).flatten = text.drop start ∧
      ∀ c ∈ fixedSizeLoop text n 0 fuel start, c.length ≤ n := by
  intro fuel
  induction fuel with
  | zero => intro start h; omega
  | succ fuel ih =>
    intro start hfuel
    by_cases hs : start < text.length
    · have he1 : start + 1 ≤ min (start + n) text.length := by omega
      have he2 : min (start + n) text.length ≤ text.length := by omega
      by_cases hb : text.length - 0 ≤ min (start + n) text.length - 0
      · have heq : min (start + n) text.length = text.length := by omega
        simp only [fixedSizeLoop, if_pos hs, if_pos hb, heq]
        constructor
        · simp [List.take_of_length_le, List.length_drop]
        · intro c hc
          rw [if_pos (Nat.le_refl _), List.mem_singleton] at hc
          subst hc
          simp only [List.length_take, List.length_drop]
          omega
      · simp only [fixedSizeLoop, if_pos hs, if_neg hb]
        have hlt : min (start + n) text.length < text.length := by omega
        have ihh := ih (min (start + n) text.length - 0) (by omega)
        constructor
        · rw [List.flatten_cons, ihh.1]
          have : (text.drop start).drop (min (start + n) text.length - start)
              = text.drop (min (start + n) text.length - 0) := by
            rw [List.drop_drop]
            congr 1
            omega
          rw [← this, List.take_append_drop]
        · intro c hc
          simp only [List.mem_cons] at hc
          rcases hc with hc | hc
          · subst hc
            simp only [List.length_take, List.length_drop]
            omega
          · exact ihh.2 c hc
    · simp only [fixedSizeLoop, if_neg hs]
      constructor
      · simp only [List.flatten_nil]
        rw [List.drop_of_length_le (by omega)]
      · simp

/-- Fuel above `text.length - start + 1` does not change the fixed-size loop
(the JS `while` loop terminates at overlap 0). -/
theorem fixedSizeLoop_fuel (text : List Char) (n : Nat) (hn : 1 ≤ n) :
    ∀ fuel fuel' start, text.length - start + 1 ≤ fuel →
      text.length - start + 1 ≤ fuel' →
      fixedSizeLoop text n 0 fuel start = fixedSizeLoop text n 0 fuel' start := by
  intro fuel
  induction fuel with
  | zero => intro fuel' start h; omega
  | succ fuel ih =>
    intro fuel' start hfuel hfuel'
    obtain ⟨f', rfl⟩ : ∃ f', fuel' = f' + 1 := ⟨fuel' - 1, by omega⟩
    by_cases hs : start < text.length
    · by_cases hb : text.length - 0 ≤ min (start + n) text.length - 0
      · simp only [fixedSizeLoop, if_pos hs, if_pos hb]
      · have hlt : start + 1 ≤ min (start + n) text.length := by omega
        simp only [fixedSizeLoop, if_pos hs, if_neg hb]
        rw [ih f' (min (start + n) text.length - 0) (by omega) (by omega)]
    · simp only [fixedSizeLoop, if_neg hs]

/-- C10: fixed-size chunking with overlap 0 and chunk size `n ≥ 1`, as
dispatched through `chunkString`, yields chunks of length at most `n` whose
in-order concatenation is exactly the input, and the loop terminates (its
result is stable under any sufficient fuel). -/
theorem chunkString_fixedSize_exact (s : List Char) (n : Nat) (hn : 1 ≤ n) :
    (∀ c ∈ chunkString ⟨.fixedSize, some n, some 0, none⟩ s, c.length ≤ n) ∧
    (chunkString ⟨.fixedSize, some n, some 0, none⟩ s).flatten = s ∧
    ∀ fuel, s.length + 1 ≤ fuel →
      fixedSizeLoop s n 0 fuel 0 = fixedSizeChunking s n 0 := by
  have hrw : chunkString ⟨.fixedSize, some n, some 0, none⟩ s
      = fixedSizeLoop s n 0 (s.length + 1) 0 := by
    show fixedSizeChunking s (jsOr (some n) 1000) (jsOr (some 0) 0)
        = fixedSizeLoop s n 0 (s.length + 1) 0
    have h1 : jsOr (some n) 1000 = n := by
      simp only [jsOr]; split <;> omega
    have h2 : jsOr (some 0) 0 = 0 := by simp [jsOr]
    rw [h1, h2]
    rfl
  have hspec := fixedSizeLoop_spec s n hn (s.length + 1) 0 (by omega)
  refine ⟨?_, ?_, ?_⟩
  · intro c hc
    rw [hrw] at hc
    exact hspec.2 c hc
  · rw [hrw]
    simpa using hspec.1
  · intro fuel hfuel
    exact fixedSizeLoop_fuel s n hn fuel (s.length + 1) 0 (by omega) (by omega)

/-- Witness for C10 at a concrete input: chunking "hello" with size 2 and
overlap 0. -/
theorem chunkString_fixedSize_exact_witness :
    (∀ c ∈ chunkString ⟨.fixedSize, some 2, some 0, none⟩
        ['h', 'e', 'l', 'l', 'o'], c.length ≤ 2) ∧
    (chunkString ⟨.fixedSize, some 2, some 0, none⟩
        ['h', 'e', 'l', 'l', 'o']).flatten = ['h', 'e', 'l', 'l', 'o'] ∧
    ∀ fuel, ['h', 'e', 'l', 'l', 'o'].length + 1 ≤ fuel →
      fixedSizeLoop ['h', 'e', 'l', 'l', 'o'] 2 0 fuel 0
        = fixedSizeChunking ['h', 'e', 'l', 'l', 'o'] 2 0 :=
  chunkString_fixedSize_exact ['h', 'e', 'l', 'l', 'o'] 2 (by decide)

/-! ## Validation utilities (`src/lib/utils/validation.ts`)

The backend returns raw text; `JSON.parse` itself is modelled as a parameter
`jsonParse : List Char → Option Json` (a partial parser), since no verified
claim depends on the internals of JSON parsing — only on what happens when
it fails or when validation rejects the parsed value. -/

/-- Field lookup on a parsed JSON object. -/
def jget (fields : List (String × Json)) (k : String) : Option Json :=
  (fields.find? (fun p => p.1 = k)).map Prod.snd

/-- Per-task schema check inside `validateTaskPlan`: `description` a string;
`tool`, `args`, `dependencies` optional with the stated shapes. An absent
key models JS `undefined`. -/
def validTaskDef (j : Json) : Bool :=
  match j with
  | .obj f =>
    (match jget f "description" with | some (.str _) => true | _ => false) &&
    (match jget f "tool" with
      | none => true | some (.str _) => true | _ => false) &&
    (match jget f "args" with
      | none => true | some (.obj _) => true | _ => false) &&
    (match jget f "dependencies" with
      | none => true
      | some (.arr ds) =>
          ds.all (fun d => match d with | .str _ => true | _ => false)
      | _ => false)
  | _ => false

/-- Plan schema check (`validateTaskPlan`): an object whose `tasks` field is
an array of valid task definitions. -/
def validateTaskPlan (j : Json) : Bool :=
  match j with
  | .obj f =>
    match jget f "tasks" with
    | some (.arr tasks) => tasks.all validTaskDef
    | _ => false
  | _ => false

/-- Safe JSON parse with validation (`safeJSONParse`): parse errors and
validation failures both give `none`. -/
def safeJSONParse (jsonParse : List Char → Option Json) (s : List Char)
    (validator : Json → Bool) : Option Json :=
  match jsonParse s with
  | none => none
  | some j => if validator j then some j else none

/-- Backtick character, written via its code point. -/
def backtick : Char := Char.ofNat 96

/-- Code fence token. -/
def fence : List Char := [backtick, backtick, backtick]

/-- Suffix of the text just after the first occurrence of a code fence. -/
def findFence : List Char → Option (List Char)
  | [] => none
  | c :: rest =>
    if fence.isPrefixOf (c :: rest) then some ((c :: rest).drop fence.length)
    else findFence rest

/-- Lazy capture of the fenced JSON regex body: the shortest prefix ending in
a closing brace that is followed by optional whitespace and a closing fence,
mirroring the non-greedy group in the fenced-block branch of `extractJSON`. -/
def lazyBrace (acc : List Char) : List Char → Option (List Char)
  | [] => none
  | c :: rest =>
    if c = rbrace ∧ fence.isPrefixOf (rest.dropWhile isWs) then
      some (acc ++ [c])
    else lazyBrace (acc ++ [c]) rest

/-- Fenced-block branch of `extractJSON`: after the first code fence, an
optional `json` tag, whitespace, then a lazily captured brace block that must
be followed by whitespace and a closing fence. Matching is mirrored for
texts with at most one fenced block; no theorem relies on this branch beyond
its failure on texts containing no fence or no brace. -/
def extractCodeBlock (text : List Char) : Option (List Char) :=
  match findFence text with
  | none => none
  | some afterOpen =>
    let afterTag :=
      if ['j', 's', 'o', 'n'].isPrefixOf afterOpen then afterOpen.drop 4
      else afterOpen
    match afterTag.dropWhile isWs with
    | [] => none
    | c :: rest =>
      if c = lbrace then lazyBrace [] (c :: rest) else none

/-- Raw-text branch of `extractJSON`: the greedy regex from the first opening
brace to the last closing brace. -/
def extractBraceSpan (text : List Char) : Option (List Char) :=
  let fromFirst := text.dropWhile (fun c => ¬ c = lbrace)
  match fromFirst with
  | [] => none
  | _ =>
    let upToLast := (fromFirst.reverse.dropWhile (fun c => ¬ c = rbrace)).reverse
    match upToLast with
    | [] => none
    | s => some s

/-- JSON extraction from markdown or raw text (`extractJSON` in
`validation.ts`): try the fenced block first, then the brace span. -/
def extractJSON (text : List Char) : Option (List Char) :=
  match extractCodeBlock text with
  | some s => some s
  | none => extractBraceSpan text

/-! ## Planner (`src/lib/agent/planner.ts`) -/

/-- Planning prompt (`buildPlanningPrompt`). The prompt's long instruction
text is abbreviated to its head plus the request: the prompt is consumed
only by the backend oracle, and no verified property depends on its exact
wording. -/
def buildPlanningPrompt (request : String) (availableTools : List String) :
    String :=
  "You are an AI task planner. Break down the following user request into "
    ++ "concrete, executable subtasks.\n\nUser Request: " ++ request
    ++ "\n\nAvailable Tools:\n"
    ++ String.intercalate "\n" (availableTools.map (fun t => "- " ++ t))

/-- Conversion of a validated task definition to a `Task`
(`parsePlanResponse`'s map): id `task-<idx>`, falsy-or defaults for
description, args and dependencies. Non-string members of a dependencies
array are dropped; validation has already excluded them. -/
def taskOfJson (idx : Nat) (j : Json) : Task :=
  match j with
  | .obj f =>
    { id := "task-" ++ toString idx
      description :=
        match jget f "description" with
        | some (.str s) => if s = "" then "Unnamed task" else s
        | _ => "Unnamed task"
      status := .pending
      tool := match jget f "tool" with | some (.str s) => some s | _ => none
      args := match jget f "args" with | some (.obj a) => a | _ => []
      dependencies :=
        match jget f "dependencies" with
        | some (.arr ds) =>
            ds.filterMap (fun d => match d with | .str s => some s | _ => none)
        | _ => [] }
  | _ => { id := "task-" ++ toString idx, description := "Unnamed task" }

/-- Parse the backend planning response (`parsePlanResponse`): failed
extraction and failed parse/validation raise the two distinct errors of the
source; unknown tool names are merely logged there, so they do not affect
the result. -/
def parsePlanResponse (jsonParse : List Char → Option Json)
    (response : List Char) : Except String (List Task) :=
  match extractJSON response with
  | none => .error "No JSON found in planning response"
  | some jsonStr =>
    match safeJSONParse jsonParse jsonStr validateTaskPlan with
    | none => .error "Invalid task plan structure"
    | some planData =>
      match planData with
      | .obj f =>
        match jget f "tasks" with
        | some (.arr tasks) =>
            .ok (tasks.enum.map (fun p => taskOfJson p.1 p.2))
        | _ => .error "Invalid task plan structure"
      | _ => .error "Invalid task plan structure"

/-- Strategy classification (`determinePlanStrategy`). -/
def determinePlanStrategy (tasks : List Task) : PlanStrategy :=
  let hasDependencies := tasks.any (fun t => 0 < t.dependencies.length)
  if ¬ hasDependencies ∧ 1 < tasks.length then .parallel
  else if hasDependencies ∧ 3 < tasks.length then .mixed
  else .sequential

/-- Fallback plan on any planning failure (`createFallbackPlan`): one
pending task holding the literal request, no tool bound. -/
def createFallbackPlan (freshId : String) (userRequest : String) : TaskPlan :=
  { id := freshId
    originalRequest := userRequest
    tasks := [{ id := "task-0", description := userRequest, status := .pending }]
    strategy := .sequential
    status := .planning
    completedTasks := 0
    totalTasks := 1 }

/-- Plan a task (`planTask`): call the backend, parse and validate; any
error along the way — backend failure, missing JSON, invalid structure —
falls back to the single-task plan. `llm` is the backend oracle and
`freshId` stands for the `nanoid()` plan id. -/
def planTask (llm : String → Except String String)
    (jsonParse : List Char → Option Json) (freshId : String)
    (userRequest : String) (availableTools : List String) : TaskPlan :=
  match (llm (buildPlanningPrompt userRequest availableTools)).bind
      (fun response => parsePlanResponse jsonParse response.data) with
  | .ok tasks =>
    { id := freshId
      originalRequest := userRequest
      tasks := tasks
      strategy := determinePlanStrategy tasks
      status := .planning
      completedTasks := 0
      totalTasks := tasks.length }
  | .error _ => createFallbackPlan freshId userRequest

/-- C6: whenever the backend response fails JSON extraction or schema
validation, `planTask` returns the fallback plan — exactly one task whose
description is the original request and whose tool is unset, strategy
sequential, `totalTasks = 1` — and never surfaces the parse error. -/
theorem planTask_fallback_on_invalid (llm : String → Except String String)
    (jsonParse : List Char → Option Json) (freshId userRequest : String)
    (availableTools : List String) (response : String)
    (hresp : llm (buildPlanningPrompt userRequest availableTools)
      = .ok response)
    (hfail : extractJSON response.data = none ∨
      ∃ s, extractJSON response.data = some s ∧
        safeJSONParse jsonParse s validateTaskPlan = none) :
    planTask llm jsonParse freshId userRequest availableTools
        = createFallbackPlan freshId userRequest ∧
      (planTask llm jsonParse freshId userRequest availableTools).tasks.length
        = 1 ∧
      (∀ t ∈ (planTask llm jsonParse freshId userRequest availableTools).tasks,
        t.description = userRequest ∧ t.tool = none) ∧
      (planTask llm jsonParse freshId userRequest
        availableTools).strategy = .sequential ∧
      (planTask llm jsonParse freshId userRequest
        availableTools).totalTasks = 1 := by
  have hplan : planTask llm jsonParse freshId userRequest availableTools
      = createFallbackPlan freshId userRequest := by
    unfold planTask
    rw [hresp]
    rcases hfail with hnone | ⟨s, hs, hval⟩
    · simp [Except.bind, parsePlanResponse, hnone]
    · simp [Except.bind, parsePlanResponse, hs, hval]
  refine ⟨hplan, ?_, ?_, ?_, ?_⟩ <;> rw [hplan]
  · rfl
  · intro t ht
    simp only [createFallbackPlan, List.mem_singleton] at ht
    subst ht
    exact ⟨rfl, rfl⟩
  · rfl
  · rfl

/-- Witness for C6: the literal backend response "I cannot produce JSON"
contains no JSON, so planning falls back to the single-task plan. -/
theorem planTask_fallback_on_invalid_witness :
    planTask (fun _ => .ok "I cannot produce JSON") (fun _ => none) "plan-1"
        "build me a site" ["read_file"]
      = createFallbackPlan "plan-1" "build me a site" ∧
    (planTask (fun _ => .ok "I cannot produce JSON") (fun _ => none) "plan-1"
        "build me a site" ["read_file"]).tasks.length = 1 ∧
    (∀ t ∈ (planTask (fun _ => .ok "I cannot produce JSON") (fun _ => none)
        "plan-1" "build me a site" ["read_file"]).tasks,
      t.description = "build me a site" ∧ t.tool = none) ∧
    (planTask (fun _ => .ok "I cannot produce JSON") (fun _ => none) "plan-1"
        "build me a site" ["read_file"]).strategy = .sequential ∧
    (planTask (fun _ => .ok "I cannot produce JSON") (fun _ => none) "plan-1"
        "build me a site" ["read_file"]).totalTasks = 1 :=
  planTask_fallback_on_invalid (fun _ => .ok "I cannot produce JSON")
    (fun _ => none) "plan-1" "build me a site" ["read_file"]
    "I cannot produce JSON" rfl (Or.inl (by decide))

/-! ## Reflector (`src/lib/agent/reflector.ts`) -/

/-- Structured reflection verdict (`ReflectionResult` in `agent/types.ts`).
The alternative approach is kept as the raw parsed JSON blob, as the source
stores whatever the backend produced. -/
structure ReflectionResult where
  success : Bool
  confidence : ℚ
  issues : List String
  suggestions : List String
  shouldRetry : Bool
  alternativeApproach : Option Json := none

mutual

/-- Plain JSON rendering used when fields are spliced into prompts. String
escaping and the pretty-printing of `JSON.stringify(x, null, 2)` are not
reproduced: rendered text only feeds the backend oracle. -/
def jsonStringify : Json → String
  | .str s => "\"" ++ s ++ "\""
  | .num n => toString n
  | .bool b => if b then "true" else "false"
  | .null => "null"
  | .arr xs => "[" ++ jsonStringifyList xs ++ "]"
  | .obj fs => "\x7b" ++ jsonStringifyFields fs ++ "\x7d"

def jsonStringifyList : List Json → String
  | [] => ""
  | [x] => jsonStringify x
  | x :: y :: xs => jsonStringify x ++ "," ++ jsonStringifyList (y :: xs)

def jsonStringifyFields : List (String × Json) → String
  | [] => ""
  | [(k, v)] => "\"" ++ k ++ "\":" ++ jsonStringify v
  | (k, v) :: f :: fs =>
    "\"" ++ k ++ "\":" ++ jsonStringify v ++ "," ++ jsonStringifyFields (f :: fs)

end

/-- Result serialization for the reflection prompt (`serializeResult`):
strings are truncated to 500 characters, other values are stringified and
truncated with an ellipsis. -/
def serializeResult (r : Json) : String :=
  match r with
  | .str s => String.mk (s.data.take 500)
  | v =>
    let s := jsonStringify v
    if 500 < s.length then String.mk (s.data.take 500) ++ "..." else s

/-- Status rendering used in the reflection prompt. -/
def statusText : TStatus → String
  | .pending => "pending"
  | .in_progress => "in_progress"
  | .completed => "completed"
  | .failed => "failed"
  | .skipped => "skipped"

/-- Reflection prompt (`analyzeResult`'s template). The fixed instruction
text is abbreviated; only the task-derived parts are kept, since the prompt
is consumed solely by the backend oracle. -/
def reflectionPrompt (task : Task) (expectedOutcome : Option String) : String :=
  "\nAnalyze the following task execution and provide detailed feedback.\n\n"
    ++ "Task: " ++ task.description ++ "\n"
    ++ "Tool Used: " ++ (task.tool.getD "None") ++ "\n"
    ++ "Status: " ++ statusText task.status ++ "\n"
    ++ (match task.result with
        | some r => "Result: " ++ serializeResult r
        | none => "")
    ++ (match task.error with
        | some e => "Error: " ++ e
        | none => "")
    ++ (match expectedOutcome with
        | some o => "Expected Outcome: " ++ o
        | none => "")

/-- Brace-span JSON extraction used by the Reflector (`extractJSON` in
`reflector.ts`): the single greedy regex, throwing when no JSON is found. -/
def reflectorExtractJSON (response : List Char) : Except String (List Char) :=
  match extractBraceSpan response with
  | none => .error "No JSON found in response"
  | some s => .ok s

/-- Parse the reflection response (`parseReflectionResponse`): field defaults
follow the JS falsy-or semantics (`parsed.confidence || 0.5` turns a zero or
missing confidence into 0.5), confidence is clamped into [0, 1], array
fields default to empty, and a falsy alternative approach becomes absent.
Non-string members of the issue and suggestion arrays are dropped here;
the source keeps them unchecked, and no claim depends on them. -/
def parseReflectionResponse (jsonParse : List Char → Option Json)
    (response : List Char) : Except String ReflectionResult :=
  match reflectorExtractJSON response with
  | .error e => .error e
  | .ok jsonStr =>
    match jsonParse jsonStr with
    | none => .error "Failed to parse reflection response"
    | some j =>
      match j with
      | .obj f =>
        let rawConf : ℚ :=
          match jget f "confidence" with
          | some (.num q) => if q = 0 then 1/2 else q
          | _ => 1/2
        .ok {
          success :=
            match jget f "success" with
            | some (.bool true) => true | _ => false
          confidence := max 0 (min 1 rawConf)
          issues :=
            match jget f "issues" with
            | some (.arr l) =>
                l.filterMap (fun i => match i with | .str s => some s | _ => none)
            | _ => []
          suggestions :=
            match jget f "suggestions" with
            | some (.arr l) =>
                l.filterMap (fun s => match s with | .str t => some t | _ => none)
            | _ => []
          shouldRetry :=
            match jget f "shouldRetry" with
            | some (.bool true) => true | _ => false
          alternativeApproach :=
            match jget f "alternativeApproach" with
            | some .null => none
            | some (.bool false) => none
            | some (.str "") => none
            | some (.num q) => if q = 0 then none else some (.num q)
            | some v => some v
            | none => none }
      | _ => .error "Failed to parse reflection response"

/-- Fallback reflection derived purely from the task's own status
(`createFallbackReflection`). -/
def createFallbackReflection (task : Task) : ReflectionResult :=
  if task.status = .completed then
    { success := true, confidence := 8/10, issues := [], suggestions := []
      shouldRetry := false }
  else if task.status = .failed then
    { success := false, confidence := 0
      issues := [task.error.getD "Task failed"]
      suggestions := ["Try a different approach", "Check tool arguments"]
      shouldRetry := true }
  else
    { success := false, confidence := 1/2, issues := ["Task did not complete"]
      suggestions := [], shouldRetry := false }

/-- Analyze a task result (`analyzeResult`): ask the backend and parse; any
failure — backend throw or parse failure — yields the status-derived
fallback reflection. -/
def analyzeResult (llm : String → Except String String)
    (jsonParse : List Char → Option Json) (task : Task)
    (expectedOutcome : Option String) : ReflectionResult :=
  match llm (reflectionPrompt task expectedOutcome) with
  | .error _ => createFallbackReflection task
  | .ok response =>
    match parseReflectionResponse jsonParse response.data with
    | .ok r => r
    | .error _ => createFallbackReflection task

/-- C9: for a failed task with a stored error message, a throwing backend
makes `analyzeResult` return the deterministic fallback — success false,
confidence 0, issues exactly the stored error, retry suggested. The result
is a constant determined by the task alone, so repeated invocations on the
unchanged task are identical. -/
theorem analyzeResult_failed_fallback (llm : String → Except String String)
    (jsonParse : List Char → Option Json) (task : Task)
    (expectedOutcome : Option String) (e msg : String)
    (hstatus : task.status = .failed) (herr : task.error = some e)
    (hthrow : llm (reflectionPrompt task expectedOutcome) = .error msg) :
    analyzeResult llm jsonParse task expectedOutcome
      = { success := false, confidence := 0, issues := [e]
          suggestions := ["Try a different approach", "Check tool arguments"]
          shouldRetry := true } := by
  unfold analyzeResult
  rw [hthrow]
  unfold createFallbackReflection
  rw [hstatus, herr]
  simp

/-- Witness for C9 at a concrete failed task and an unreachable backend. -/
theorem analyzeResult_failed_fallback_witness :
    analyzeResult (fun _ => .error "network down") (fun _ => none)
        { id := "task-0", description := "fetch data", status := .failed
          error := some "tool crashed" } none
      = { success := false, confidence := 0, issues := ["tool crashed"]
          suggestions := ["Try a different approach", "Check tool arguments"]
          shouldRetry := true } :=
  analyzeResult_failed_fallback (fun _ => .error "network down")
    (fun _ => none)
    { id := "task-0", description := "fetch data", status := .failed
      error := some "tool crashed" } none "tool crashed" "network down"
    rfl rfl rfl

/-! ## Topological sort (`topologicalSort` / `optimizePlan` in `planner.ts`)

The source's recursive `visit` closure mutates `visited`, `visiting` and
`sorted`; here they form an explicit state. JS recursion depth is replaced
by fuel; `tasks.length + 1` fuel is proved sufficient, and the artificial
`fuelExhausted` error is proved unreachable, so the JS function's behaviour
— termination with either a sorted list or a circular-dependency error — is
captured exactly. -/

/-- DFS bookkeeping state of `topologicalSort`. -/
structure TopoState where
  visited : List String
  visiting : List String
  sorted : List Task

/-- Errors of the modelled `topologicalSort`: the source's
`Circular dependency detected: <id>` exception, plus the fuel marker that
stands for non-termination and is proved unreachable. -/
inductive TopoErr where
  | circular (id : String)
  | fuelExhausted
deriving DecidableEq, Repr

/-- First task with the given id (`tasks.find(t => t.id === depId)`). -/
def findTask (tasks : List Task) (tid : String) : Option Task :=
  tasks.find? (fun t => t.id = tid)

/-- Dependency loop inside `visit`: for each declared dependency that is
present in the plan, run the step (a nested `visit`); errors propagate. -/
def foldVisit (step : Task → TopoState → Except TopoErr TopoState)
    (tasks : List Task) : List String → TopoState → Except TopoErr TopoState
  | [], s => .ok s
  | d :: ds, s =>
    match findTask tasks d with
    | none => foldVisit step tasks ds s
    | some dt =>
      match step dt s with
      | .error e => .error e
      | .ok s1 => foldVisit step tasks ds s1

/-- The `visit` closure of `topologicalSort`: skip if visited, raise the
circular error if currently visiting, otherwise mark visiting, visit all
present dependencies first, then unmark and emit the task. -/
def visit (tasks : List Task) : Nat → Task → TopoState → Except TopoErr TopoState
  | 0 => fun _ _ => .error .fuelExhausted
  | fuel+1 => fun t s =>
    if t.id ∈ s.visited then .ok s
    else if t.id ∈ s.visiting then .error (.circular t.id)
    else
      match foldVisit (visit tasks fuel) tasks t.dependencies
          { s with visiting := t.id :: s.visiting } with
      | .error e => .error e
      | .ok s2 =>
        .ok { visited := t.id :: s2.visited
              visiting := s2.visiting.erase t.id
              sorted := s2.sorted ++ [t] }

/-- Top-level loop of `topologicalSort`: visit every task in plan order. -/
def topoFold (step : Task → TopoState → Except TopoErr TopoState) :
    List Task → TopoState → Except TopoErr TopoState
  | [], s => .ok s
  | t :: ts, s =>
    match step t s with
    | .error e => .error e
    | .ok s1 => topoFold step ts s1

/-- Topological sort of a task list (`topologicalSort`). -/
def topologicalSort (tasks : List Task) : Except TopoErr (List Task) :=
  match topoFold (visit tasks (tasks.length + 1)) tasks ⟨[], [], []⟩ with
  | .error e => .error e
  | .ok s => .ok s.sorted

/-- Plan optimisation (`optimizePlan`): sort the tasks topologically and
re-classify the strategy on the sorted order; the circular-dependency
exception propagates to the caller. -/
def optimizePlan (plan : TaskPlan) : Except TopoErr TaskPlan :=
  match topologicalSort plan.tasks with
  | .error e => .error e
  | .ok sorted =>
    .ok { plan with tasks := sorted, strategy := determinePlanStrategy sorted }

/-- Direct dependency edge on ids: `x`'s task (present in the plan) declares
dependency `y`, and `y` is itself the id of a plan task. -/
def IdDep (tasks : List Task) (x y : String) : Prop :=
  ∃ t ∈ tasks, t.id = x ∧ y ∈ t.dependencies ∧ y ∈ idsOf tasks

/-- Acyclicity of the dependency graph restricted to present tasks. -/
def Acyclic (tasks : List Task) : Prop :=
  ∀ x, ¬ Relation.TransGen (IdDep tasks) x x

/-- Topological-order property of an output list: every present dependency
of the task at position `i` already occurs among the first `i` tasks. -/
def DepsBefore (tasks : List Task) (l : List Task) : Prop :=
  ∀ i, (h : i < l.length) → ∀ d ∈ l[i].dependencies,
    d ∈ idsOf tasks → d ∈ idsOf (l.take i)

/-- Tasks found by id are members of the list. -/
theorem findTask_mem {tasks : List Task} {d : String} {t : Task}
    (h : findTask tasks d = some t) : t ∈ tasks :=
  List.mem_of_find?_eq_some h

/-- Tasks found by id carry that id. -/
theorem findTask_id {tasks : List Task} {d : String} {t : Task}
    (h : findTask tasks d = some t) : t.id = d := by
  have := List.find?_some h
  simpa using this

/-- A present id always resolves through `findTask`. -/
theorem findTask_of_mem_ids {tasks : List Task} {d : String}
    (h : d ∈ idsOf tasks) : ∃ t, findTask tasks d = some t := by
  rcases List.mem_map.mp h with ⟨t, hmem, hid⟩
  have : (findTask tasks d).isSome := by
    rw [findTask, List.find?_isSome]
    exact ⟨t, hmem, by simpa using hid⟩
  rcases Option.isSome_iff_exists.mp this with ⟨u, hu⟩
  exact ⟨u, hu⟩

/-- Empty dependency-order property extends over a snoc when the appended
task's present dependencies already occur in the prefix. -/
theorem depsBefore_append {tasks : List Task} {l : List Task} {t : Task}
    (hl : DepsBefore tasks l)
    (ht : ∀ d ∈ t.dependencies, d ∈ idsOf tasks → d ∈ idsOf l) :
    DepsBefore tasks (l ++ [t]) := by
  intro i h d hd hids
  rcases Nat.lt_or_ge i l.length with hi | hi
  · have hget : (l ++ [t])[i] = l[i] := List.getElem_append_left hi
    rw [hget] at hd
    have htake : (l ++ [t]).take i = l.take i :=
      List.take_append_of_le_length (Nat.le_of_lt hi)
    rw [htake]
    exact hl i hi d hd hids
  · have hlen : i = l.length := by
      have := h
      simp only [List.length_append, List.length_singleton] at this
      omega
    subst hlen
    have hget : (l ++ [t])[l.length] = t := by
      rw [List.getElem_append_right (Nat.le_refl _)]
      simp
    rw [hget] at hd
    have htake : (l ++ [t]).take l.length = l :=
      List.take_left l [t]
    rw [htake]
    exact ht d hd hids

/-- DFS invariant: the emitted list mirrors the visited set in reverse,
satisfies the dependency-order property, draws from the plan, has no
duplicates, and never contains an id still being visited. -/
structure TopoInv (tasks : List Task) (s : TopoState) : Prop where
  ids_eq : idsOf s.sorted = s.visited.reverse
  good : DepsBefore tasks s.sorted
  sub : ∀ u ∈ s.sorted, u ∈ tasks
  nodupV : s.visited.Nodup
  disj : ∀ x ∈ s.visiting, x ∉ s.visited

/-- Specification of one successful `visit` step: it preserves the
invariant and the visiting stack, only grows the visited set, records the
task itself as visited, and never newly visits an id that was on the
visiting stack when it started. -/
def StepSpec (tasks : List Task)
    (step : Task → TopoState → Except TopoErr TopoState) : Prop :=
  ∀ t s s', t ∈ tasks → TopoInv tasks s → step t s = .ok s' →
    TopoInv tasks s' ∧ s'.visiting = s.visiting ∧
    (∀ x ∈ s.visited, x ∈ s'.visited) ∧ t.id ∈ s'.visited ∧
    (∀ x ∈ s'.visited, x ∈ s.visited ∨ x ∉ s.visiting)

/-- The dependency loop inherits the step specification and additionally
leaves every present dependency visited. -/
theorem foldVisit_spec {tasks : List Task}
    {step : Task → TopoState → Except TopoErr TopoState}
    (hstep : StepSpec tasks step) :
    ∀ (ds : List String) (s s' : TopoState), TopoInv tasks s →
      foldVisit step tasks ds s = .ok s' →
      TopoInv tasks s' ∧ s'.visiting = s.visiting ∧
      (∀ x ∈ s.visited, x ∈ s'.visited) ∧
      (∀ x ∈ s'.visited, x ∈ s.visited ∨ x ∉ s.visiting) ∧
      (∀ d ∈ ds, d ∈ idsOf tasks → d ∈ s'.visited) := by
  intro ds
  induction ds with
  | nil =>
    intro s s' hinv h
    simp only [foldVisit] at h
    cases h
    exact ⟨hinv, rfl, fun x hx => hx, fun x hx => Or.inl hx, by simp⟩
  | cons d ds ih =>
    intro s s' hinv h
    simp only [foldVisit] at h
    split at h
    · rename_i hfind
      obtain ⟨hinv', hvg, hmono, hfresh, hds⟩ := ih s s' hinv h
      refine ⟨hinv', hvg, hmono, hfresh, ?_⟩
      intro e he hids
      rcases List.mem_cons.mp he with rfl | he'
      · rcases findTask_of_mem_ids hids with ⟨u, hu⟩
        rw [hfind] at hu
        cases hu
      · exact hds e he' hids
    · rename_i dt hfind
      split at h
      · cases h
      · rename_i s1 hdt
        obtain ⟨hinv1, hvg1, hmono1, hid1, hfresh1⟩ :=
          hstep dt s s1 (findTask_mem hfind) hinv hdt
        obtain ⟨hinv', hvg, hmono, hfresh, hds⟩ := ih s1 s' hinv1 h
        refine ⟨hinv', hvg.trans hvg1, fun x hx => hmono x (hmono1 x hx),
          ?_, ?_⟩
        · intro x hx
          rcases hfresh x hx with hx1 | hx1
          · rcases hfresh1 x hx1 with hx2 | hx2
            · exact Or.inl hx2
            · exact Or.inr hx2
          · rw [hvg1] at hx1
            exact Or.inr hx1
        · intro e he hids
          rcases List.mem_cons.mp he with rfl | he'
          · have : e ∈ s1.visited := by
              rw [← findTask_id hfind]
              exact hid1
            exact hmono e this
          · exact hds e he' hids

/-- Every fuel level of `visit` satisfies the step specification (at fuel 0
there are no successful runs, so the base case is vacuous). -/
theorem visit_stepSpec (tasks : List Task) :
    ∀ fuel, StepSpec tasks (visit tasks fuel) := by
  intro fuel
  induction fuel with
  | zero =>
    intro t s s' _ _ h
    simp [visit] at h
  | succ fuel ih =>
    intro t s s' ht hinv h
    simp only [visit] at h
    by_cases h1 : t.id ∈ s.visited
    · rw [if_pos h1] at h
      cases h
      exact ⟨hinv, rfl, fun x hx => hx, h1, fun x hx => Or.inl hx⟩
    · rw [if_neg h1] at h
      by_cases h2 : t.id ∈ s.visiting
      · rw [if_pos h2] at h; cases h
      · rw [if_neg h2] at h
        have hinv1 : TopoInv tasks { s with visiting := t.id :: s.visiting } :=
          { ids_eq := hinv.ids_eq
            good := hinv.good
            sub := hinv.sub
            nodupV := hinv.nodupV
            disj := by
              intro x hx
              rcases List.mem_cons.mp hx with rfl | hx'
              · exact h1
              · exact hinv.disj x hx' }
        split at h
        · cases h
        · rename_i s2 hfold
          obtain ⟨hinv2, hvg2, hmono2, hfresh2, hdeps2⟩ :=
            foldVisit_spec ih t.dependencies _ s2 hinv1 hfold
          have hvg2' : s2.visiting = t.id :: s.visiting := hvg2
          have hvt : t.id ∉ s2.visited := by
            intro hmem
            rcases hfresh2 t.id hmem with hx | hx
            · exact h1 hx
            · exact hx (List.mem_cons_self _ _)
          cases h
          refine ⟨?_, ?_, ?_, ?_, ?_⟩
          · refine
              { ids_eq := ?_
                good := ?_
                sub := ?_
                nodupV := ?_
                disj := ?_ }
            · show idsOf (s2.sorted ++ [t]) = (t.id :: s2.visited).reverse
              rw [idsOf, List.map_append, ← idsOf, hinv2.ids_eq,
                List.reverse_cons]
              rfl
            · refine depsBefore_append hinv2.good ?_
              intro d hd hids
              have hdv : d ∈ s2.visited := hdeps2 d hd hids
              rw [hinv2.ids_eq, List.mem_reverse]
              exact hdv
            · intro u hu
              rcases List.mem_append.mp hu with hu' | hu'
              · exact hinv2.sub u hu'
              · rw [List.mem_singleton] at hu'
                subst hu'
                exact ht
            · exact List.nodup_cons.mpr ⟨hvt, hinv2.nodupV⟩
            · intro x hx
              rw [hvg2', List.erase_cons_head] at hx
              intro hmem
              rcases List.mem_cons.mp hmem with rfl | hmem'
              · exact h2 hx
              · rcases hfresh2 x hmem' with hx1 | hx1
                · exact hinv.disj x hx hx1
                · exact hx1 (List.mem_cons_of_mem _ hx)
          · show s2.visiting.erase t.id = s.visiting
            rw [hvg2', List.erase_cons_head]
          · intro x hx
            exact List.mem_cons_of_mem _ (hmono2 x hx)
          · exact List.mem_cons_self _ _
          · intro x hx
            rcases List.mem_cons.mp hx with rfl | hx'
            · exact Or.inr h2
            · rcases hfresh2 x hx' with hx1 | hx1
              · exact Or.inl hx1
              · exact Or.inr (fun hmem => hx1 (List.mem_cons_of_mem _ hmem))

/-- The top-level loop inherits the step specification and visits the id of
every listed task. -/
theorem topoFold_spec {tasks : List Task}
    {step : Task → TopoState → Except TopoErr TopoState}
    (hstep : StepSpec tasks step) :
    ∀ (ts : List Task) (s s' : TopoState), (∀ t ∈ ts, t ∈ tasks) →
      TopoInv tasks s → topoFold step ts s = .ok s' →
      TopoInv tasks s' ∧ s'.visiting = s.visiting ∧
      (∀ x ∈ s.visited, x ∈ s'.visited) ∧
      (∀ t ∈ ts, t.id ∈ s'.visited) := by
  intro ts
  induction ts with
  | nil =>
    intro s s' _ hinv h
    simp only [topoFold] at h
    cases h
    exact ⟨hinv, rfl, fun x hx => hx, by simp⟩
  | cons t ts ih =>
    intro s s' hts hinv h
    simp only [topoFold] at h
    split at h
    · cases h
    · rename_i s1 hstep1
      obtain ⟨hinv1, hvg1, hmono1, hid1, _⟩ :=
        hstep t s s1 (hts t (List.mem_cons_self _ _)) hinv hstep1
      obtain ⟨hinv', hvg, hmono, hall⟩ :=
        ih s1 s' (fun u hu => hts u (List.mem_cons_of_mem _ hu)) hinv1 h
      refine ⟨hinv', hvg.trans hvg1, fun x hx => hmono x (hmono1 x hx), ?_⟩
      intro u hu
      rcases List.mem_cons.mp hu with rfl | hu'
      · exact hmono u.id hid1
      · exact hall u hu'

/-- Characterization of a successful `topologicalSort`: the output is drawn
from the plan, is duplicate-free, covers every plan task id, and satisfies
the dependency-order property. -/
theorem topologicalSort_ok_spec {tasks sorted : List Task}
    (h : topologicalSort tasks = .ok sorted) :
    DepsBefore tasks sorted ∧ (∀ u ∈ sorted, u ∈ tasks) ∧
      (idsOf sorted).Nodup ∧ ∀ t ∈ tasks, t.id ∈ idsOf sorted := by
  unfold topologicalSort at h
  split at h
  · cases h
  · rename_i s hfold
    cases h
    have hinv0 : TopoInv tasks ⟨[], [], []⟩ :=
      { ids_eq := rfl
        good := by intro i hi; simp at hi
        sub := by intro u hu; simp at hu
        nodupV := List.nodup_nil
        disj := by intro x hx; simp at hx }
    obtain ⟨hinv, _, _, hall⟩ :=
      topoFold_spec (visit_stepSpec tasks (tasks.length + 1)) tasks _ s
        (fun t ht => ht) hinv0 hfold
    refine ⟨hinv.good, hinv.sub, ?_, ?_⟩
    · rw [hinv.ids_eq]
      exact List.nodup_reverse.mpr hinv.nodupV
    · intro t ht
      rw [hinv.ids_eq, List.mem_reverse]
      exact hall t ht

/-- Membership in a prefix bounds the first-occurrence index. -/
theorem indexOf_lt_of_mem_take {l : List α} [DecidableEq α] :
    ∀ {i : Nat} {d : α}, d ∈ l.take i → l.indexOf d < i := by
  induction l with
  | nil => intro i d hd; simp at hd
  | cons a l ih =>
    intro i d hd
    cases i with
    | zero => simp at hd
    | succ j =>
      rw [List.take_succ_cons] at hd
      by_cases hda : a = d
      · subst hda
        simp [List.indexOf_cons_self]
      · rcases List.mem_cons.mp hd with rfl | hd'
        · exact absurd rfl hda
        · rw [List.indexOf_cons_ne _ (by simpa using hda)]
          exact Nat.succ_lt_succ (ih hd')

/-- Successful sorts place every transitive dependency strictly before its
dependent. -/
theorem topologicalSort_ordering {tasks sorted : List Task}
    (hnodup : (idsOf tasks).Nodup) (h : topologicalSort tasks = .ok sorted) :
    ∀ x y, Relation.TransGen (IdDep tasks) x y →
      (idsOf sorted).indexOf y < (idsOf sorted).indexOf x := by
  obtain ⟨hgood, hsub, hnd, hall⟩ := topologicalSort_ok_spec h
  have hstep : ∀ x y, IdDep tasks x y →
      (idsOf sorted).indexOf y < (idsOf sorted).indexOf x := by
    rintro x y ⟨t, htmem, rfl, hydep, hyids⟩
    have htid : t.id ∈ idsOf sorted := hall t htmem
    rcases List.mem_map.mp htid with ⟨u, humem, huid⟩
    have hueq : u = t := by
      have hut : u ∈ tasks := hsub u humem
      exact List.inj_on_of_nodup_map hnodup hut htmem huid
    subst hueq
    rcases List.getElem_of_mem humem with ⟨i, hi, hgi⟩
    have hy : y ∈ idsOf (sorted.take i) := by
      have := hgood i hi
      rw [hgi] at this
      exact this y hydep hyids
    simp only [idsOf, List.map_take] at hy
    have hylt : (idsOf sorted).indexOf y < i := indexOf_lt_of_mem_take hy
    have hilen : i < (idsOf sorted).length := by
      simp only [idsOf, List.length_map]
      exact hi
    have hxi : (idsOf sorted).indexOf u.id = i := by
      have hgi' : (idsOf sorted)[i] = u.id := by
        simp only [idsOf, List.getElem_map, hgi]
      rw [← hgi']
      exact List.indexOf_getElem hnd i hilen
    omega
  intro x y htrans
  induction htrans with
  | single hxy => exact hstep _ _ hxy
  | tail _ hbc ih => exact Nat.lt_trans (hstep _ _ hbc) ih

/-- Successful steps of the dependency loop preserve the visiting stack
whenever the underlying step does. -/
theorem foldVisit_visiting {tasks : List Task}
    {step : Task → TopoState → Except TopoErr TopoState}
    (hvis : ∀ t s s', step t s = .ok s' → s'.visiting = s.visiting) :
    ∀ (ds : List String) (s s' : TopoState),
      foldVisit step tasks ds s = .ok s' → s'.visiting = s.visiting := by
  intro ds
  induction ds with
  | nil =>
    intro s s' h
    simp only [foldVisit] at h
    cases h
    rfl
  | cons d ds ih =>
    intro s s' h
    simp only [foldVisit] at h
    split at h
    · exact ih s s' h
    · rename_i dt hfind
      split at h
      · cases h
      · rename_i s1 hdt
        exact (ih s1 s' h).trans (hvis dt s s1 hdt)

/-- Successful visits restore the visiting stack they started with. -/
theorem visit_visiting (tasks : List Task) :
    ∀ fuel (t : Task) (s s' : TopoState),
      visit tasks fuel t s = .ok s' → s'.visiting = s.visiting := by
  intro fuel
  induction fuel with
  | zero =>
    intro t s s' h
    simp [visit] at h
  | succ fuel ih =>
    intro t s s' h
    simp only [visit] at h
    by_cases h1 : t.id ∈ s.visited
    · rw [if_pos h1] at h
      cases h
      rfl
    · rw [if_neg h1] at h
      by_cases h2 : t.id ∈ s.visiting
      · rw [if_pos h2] at h; cases h
      · rw [if_neg h2] at h
        split at h
        · cases h
        · rename_i s2 hfold
          cases h
          have := foldVisit_visiting ih t.dependencies _ s2 hfold
          show s2.visiting.erase t.id = s.visiting
          rw [this]
          exact List.erase_cons_head t.id s.visiting

/-- Errors escaping the dependency loop originate in some nested step on a
plan task whose visiting stack equals the loop's. -/
theorem foldVisit_error {tasks : List Task}
    {step : Task → TopoState → Except TopoErr TopoState} {V : List String}
    (hvis : ∀ t s s', step t s = .ok s' → s'.visiting = s.visiting)
    (hstep : ∀ t s e, t ∈ tasks → s.visiting = V → step t s = .error e →
      ∃ c, e = .circular c ∧ c ∈ idsOf tasks) :
    ∀ (ds : List String) (s : TopoState) (e : TopoErr), s.visiting = V →
      foldVisit step tasks ds s = .error e →
      ∃ c, e = .circular c ∧ c ∈ idsOf tasks := by
  intro ds
  induction ds with
  | nil =>
    intro s e _ h
    simp [foldVisit] at h
  | cons d ds ih =>
    intro s e hV h
    simp only [foldVisit] at h
    split at h
    · exact ih s e hV h
    · rename_i dt hfind
      split at h
      · rename_i e1 hdt
        cases h
        exact hstep dt s _ (findTask_mem hfind) hV hdt
      · rename_i s1 hdt
        exact ih s1 e ((hvis dt s s1 hdt).trans hV) h

/-- With fuel at least `tasks.length + 1 - |visiting|`, every error raised
by `visit` is the circular-dependency error, carrying an id from the plan:
the fuel marker is unreachable. -/
theorem visit_error_circular (tasks : List Task) :
    ∀ fuel (t : Task) (s : TopoState) (e : TopoErr),
      s.visiting.Nodup → (∀ x ∈ s.visiting, x ∈ idsOf tasks) → t ∈ tasks →
      tasks.length + 1 - s.visiting.length ≤ fuel →
      visit tasks fuel t s = .error e →
      ∃ c, e = .circular c ∧ c ∈ idsOf tasks := by
  intro fuel
  induction fuel with
  | zero =>
    intro t s e hnd hsubV _ hfuel _
    have hlen : s.visiting.length ≤ (idsOf tasks).length :=
      (List.subperm_of_subset hnd (fun x hx => hsubV x hx)).length_le
    rw [idsOf, List.length_map] at hlen
    omega
  | succ fuel ih =>
    intro t s e hnd hsubV ht hfuel h
    simp only [visit] at h
    by_cases h1 : t.id ∈ s.visited
    · rw [if_pos h1] at h; cases h
    · rw [if_neg h1] at h
      by_cases h2 : t.id ∈ s.visiting
      · rw [if_pos h2] at h
        cases h
        exact ⟨t.id, rfl, List.mem_map.mpr ⟨t, ht, rfl⟩⟩
      · rw [if_neg h2] at h
        have hlen : s.visiting.length ≤ (idsOf tasks).length :=
          (List.subperm_of_subset hnd (fun x hx => hsubV x hx)).length_le
        rw [idsOf, List.length_map] at hlen
        split at h
        · rename_i e1 hfold
          cases h
          refine foldVisit_error (visit_visiting tasks fuel) ?_
            t.dependencies _ _ rfl hfold
          intro dt s0 e0 hdt hV0 hstep0
          refine ih dt s0 e0 ?_ ?_ hdt ?_ hstep0
          · rw [hV0]
            exact List.nodup_cons.mpr ⟨h2, hnd⟩
          · rw [hV0]
            intro x hx
            rcases List.mem_cons.mp hx with rfl | hx'
            · exact List.mem_map.mpr ⟨t, ht, rfl⟩
            · exact hsubV x hx'
          · rw [hV0]
            simp only [List.length_cons]
            omega
        · cases h

/-- Errors escaping the top-level loop are circular errors from the plan. -/
theorem topoFold_error {tasks : List Task}
    {step : Task → TopoState → Except TopoErr TopoState} {V : List String}
    (hvis : ∀ t s s', step t s = .ok s' → s'.visiting = s.visiting)
    (hstep : ∀ t s e, t ∈ tasks → s.visiting = V → step t s = .error e →
      ∃ c, e = .circular c ∧ c ∈ idsOf tasks) :
    ∀ (ts : List Task) (s : TopoState) (e : TopoErr), (∀ t ∈ ts, t ∈ tasks) →
      s.visiting = V → topoFold step ts s = .error e →
      ∃ c, e = .circular c ∧ c ∈ idsOf tasks := by
  intro ts
  induction ts with
  | nil =>
    intro s e _ _ h
    simp [topoFold] at h
  | cons t ts ih =>
    intro s e hts hV h
    simp only [topoFold] at h
    split at h
    · rename_i e1 hstep1
      cases h
      exact hstep t s _ (hts t (List.mem_cons_self _ _)) hV hstep1
    · rename_i s1 hstep1
      exact ih s1 e (fun u hu => hts u (List.mem_cons_of_mem _ hu))
        ((hvis t s s1 hstep1).trans hV) h

/-- Every error of `topologicalSort` is the circular-dependency error,
naming an id present in the plan. -/
theorem topologicalSort_error_circular {tasks : List Task} {e : TopoErr}
    (h : topologicalSort tasks = .error e) :
    ∃ c, e = .circular c ∧ c ∈ idsOf tasks := by
  unfold topologicalSort at h
  split at h
  · rename_i e1 hfold
    cases h
    refine topoFold_error (visit_visiting tasks (tasks.length + 1)) ?_ tasks
      _ _ (fun t ht => ht) rfl hfold
    intro t s e0 ht hV hstep0
    refine visit_error_circular tasks (tasks.length + 1) t s e0 ?_ ?_ ht ?_
      hstep0
    · rw [hV]; exact List.nodup_nil
    · rw [hV]; intro x hx; simp at hx
    · rw [hV]; simp
  · cases h

/-- The visiting stack as a dependency chain: each entry declares the entry
below it as a dependency (the head is the most recently pushed id). -/
inductive Linked (tasks : List Task) : List String → Prop
  | nil : Linked tasks []
  | single (x : String) : Linked tasks [x]
  | cons (a b : String) (l : List String) :
      IdDep tasks b a → Linked tasks (b :: l) → Linked tasks (a :: b :: l)

/-- Along a linked stack, every deeper entry transitively depends on the
head. -/
theorem linked_trans {tasks : List Task} :
    ∀ {l : List String} {a : String}, Linked tasks (a :: l) →
      ∀ x ∈ l, Relation.TransGen (IdDep tasks) x a := by
  intro l
  induction l with
  | nil =>
    intro a _ x hx
    simp at hx
  | cons b l ih =>
    intro a hlink x hx
    cases hlink with
    | cons _ _ _ hedge htail =>
      rcases List.mem_cons.mp hx with rfl | hx'
      · exact Relation.TransGen.single hedge
      · exact Relation.TransGen.tail (ih htail x hx') hedge

/-- In an acyclic plan, the dependency loop succeeds whenever each found
dependency's step succeeds from a state on the same visiting stack. -/
theorem foldVisit_total {tasks : List Task}
    {step : Task → TopoState → Except TopoErr TopoState} {V : List String}
    (hvis : ∀ t s s', step t s = .ok s' → s'.visiting = s.visiting) :
    ∀ (ds : List String) (s : TopoState), s.visiting = V →
      (∀ d ∈ ds, ∀ dt s0, findTask tasks d = some dt → s0.visiting = V →
        ∃ s', step dt s0 = .ok s') →
      ∃ s', foldVisit step tasks ds s = .ok s' := by
  intro ds
  induction ds with
  | nil =>
    intro s _ _
    exact ⟨s, rfl⟩
  | cons d ds ih =>
    intro s hV hstep
    cases hfind : findTask tasks d with
    | none =>
      simp only [foldVisit, hfind]
      exact ih s hV (fun d' hd' => hstep d' (List.mem_cons_of_mem _ hd'))
    | some dt =>
      obtain ⟨s1, hs1⟩ := hstep d (List.mem_cons_self _ _) dt s hfind hV
      simp only [foldVisit, hfind, hs1]
      exact ih s1 ((hvis dt s s1 hs1).trans hV)
        (fun d' hd' => hstep d' (List.mem_cons_of_mem _ hd'))

/-- In an acyclic plan, `visit` always succeeds given sufficient fuel and a
well-formed visiting stack extended by the visited task. -/
theorem visit_total (tasks : List Task) (hacyc : Acyclic tasks) :
    ∀ fuel (t : Task) (s : TopoState),
      s.visiting.Nodup → (∀ x ∈ s.visiting, x ∈ idsOf tasks) → t ∈ tasks →
      Linked tasks (t.id :: s.visiting) →
      tasks.length + 1 - s.visiting.length ≤ fuel →
      ∃ s', visit tasks fuel t s = .ok s' := by
  intro fuel
  induction fuel with
  | zero =>
    intro t s hnd hsubV _ _ hfuel
    have hlen : s.visiting.length ≤ (idsOf tasks).length :=
      (List.subperm_of_subset hnd (fun x hx => hsubV x hx)).length_le
    rw [idsOf, List.length_map] at hlen
    omega
  | succ fuel ih =>
    intro t s hnd hsubV ht hlink hfuel
    simp only [visit]
    by_cases h1 : t.id ∈ s.visited
    · rw [if_pos h1]
      exact ⟨s, rfl⟩
    · rw [if_neg h1]
      by_cases h2 : t.id ∈ s.visiting
      · exact absurd (linked_trans hlink t.id h2) (hacyc t.id)
      · rw [if_neg h2]
        have hlen : s.visiting.length ≤ (idsOf tasks).length :=
          (List.subperm_of_subset hnd (fun x hx => hsubV x hx)).length_le
        rw [idsOf, List.length_map] at hlen
        have hfold : ∃ s2, foldVisit (visit tasks fuel) tasks t.dependencies
            { s with visiting := t.id :: s.visiting } = .ok s2 := by
          refine foldVisit_total (visit_visiting tasks fuel)
            t.dependencies _ rfl ?_
          intro d hd dt s0 hfind hV0
          have hdid : dt.id = d := findTask_id hfind
          have hdt : dt ∈ tasks := findTask_mem hfind
          refine ih dt s0 ?_ ?_ hdt ?_ ?_
          · rw [hV0]
            exact List.nodup_cons.mpr ⟨h2, hnd⟩
          · rw [hV0]
            intro x hx
            rcases List.mem_cons.mp hx with rfl | hx'
            · exact List.mem_map.mpr ⟨t, ht, rfl⟩
            · exact hsubV x hx'
          · rw [hV0, hdid]
            refine Linked.cons d t.id s.visiting ?_ hlink
            exact ⟨t, ht, rfl, hdid ▸ hd, List.mem_map.mpr ⟨dt, hdt, hdid⟩⟩
          · rw [hV0]
            simp only [List.length_cons]
            omega
        obtain ⟨s2, hs2⟩ := hfold
        rw [hs2]
        exact ⟨_, rfl⟩

/-- In an acyclic plan, `topologicalSort` always succeeds. -/
theorem topologicalSort_total {tasks : List Task} (hacyc : Acyclic tasks) :
    ∃ sorted, topologicalSort tasks = .ok sorted := by
  have hfold : ∀ (ts : List Task) (s : TopoState), (∀ t ∈ ts, t ∈ tasks) →
      s.visiting = [] → ∃ s', topoFold (visit tasks (tasks.length + 1)) ts s
        = .ok s' := by
    intro ts
    induction ts with
    | nil => exact fun s _ _ => ⟨s, rfl⟩
    | cons t ts ih =>
      intro s hts hV
      simp only [topoFold]
      obtain ⟨s1, hs1⟩ := visit_total tasks hacyc (tasks.length + 1) t s
        (hV ▸ List.nodup_nil) (by rw [hV]; intro x hx; simp at hx)
        (hts t (List.mem_cons_self _ _)) (hV ▸ Linked.single t.id)
        (by rw [hV]; simp)
      rw [hs1]
      exact ih s1 (fun u hu => hts u (List.mem_cons_of_mem _ hu))
        ((visit_visiting tasks _ t s s1 hs1).trans hV)
  obtain ⟨s', hs'⟩ := hfold tasks ⟨[], [], []⟩ (fun t ht => ht) rfl
  refine ⟨s'.sorted, ?_⟩
  unfold topologicalSort
  rw [hs']

/-- C4: on a plan with distinct task ids and an acyclic dependency graph,
`optimizePlan` succeeds with a permutation of the original tasks in which
every transitive dependency present in the plan occurs strictly before its
dependent. -/
theorem optimizePlan_topological (plan : TaskPlan)
    (hnodup : (idsOf plan.tasks).Nodup) (hacyc : Acyclic plan.tasks) :
    ∃ plan', optimizePlan plan = .ok plan' ∧
      plan'.tasks.Perm plan.tasks ∧
      ∀ x y, Relation.TransGen (IdDep plan.tasks) x y →
        (idsOf plan'.tasks).indexOf y < (idsOf plan'.tasks).indexOf x := by
  obtain ⟨sorted, hsort⟩ := topologicalSort_total hacyc
  obtain ⟨hgood, hsub, hnd, hall⟩ := topologicalSort_ok_spec hsort
  refine ⟨{ plan with
            tasks := sorted
            strategy := determinePlanStrategy sorted }, ?_, ?_, ?_⟩
  · unfold optimizePlan
    rw [hsort]
  · show sorted.Perm plan.tasks
    have d1 : sorted.Nodup := List.Nodup.of_map Task.id hnd
    have d2 : plan.tasks.Nodup := List.Nodup.of_map Task.id hnodup
    rw [List.perm_ext_iff_of_nodup d1 d2]
    intro t
    constructor
    · exact fun ht => hsub t ht
    · intro ht
      have htid : t.id ∈ idsOf sorted := hall t ht
      rcases List.mem_map.mp htid with ⟨u, humem, huid⟩
      have : u = t :=
        List.inj_on_of_nodup_map hnodup (hsub u humem) ht huid
      exact this ▸ humem
  · exact topologicalSort_ordering hnodup hsort

/-- Witness for C4: tasks listed as [b (depends on a), a] are reordered to
place a first; hypotheses are discharged at the concrete two-task plan. -/
theorem optimizePlan_topological_witness :
    ∃ plan', optimizePlan
        { id := "p", originalRequest := "r"
          tasks := [{ id := "b", description := "B", dependencies := ["a"] },
                    { id := "a", description := "A" }]
          strategy := .sequential } = .ok plan' ∧
      plan'.tasks.Perm
        [{ id := "b", description := "B", dependencies := ["a"] },
         { id := "a", description := "A" }] ∧
      ∀ x y, Relation.TransGen
          (IdDep [{ id := "b", description := "B", dependencies := ["a"] },
                  { id := "a", description := "A" }]) x y →
        (idsOf plan'.tasks).indexOf y < (idsOf plan'.tasks).indexOf x := by
  have hedge : ∀ p q,
      IdDep [{ id := "b", description := "B", dependencies := ["a"] },
             { id := "a", description := "A" }] p q →
      p = "b" ∧ q = "a" := by
    rintro p q ⟨t, ht, rfl, hdep, hq⟩
    rcases List.mem_cons.mp ht with rfl | ht'
    · refine ⟨rfl, ?_⟩
      simpa using hdep
    · rcases List.mem_cons.mp ht' with rfl | ht''
      · simp at hdep
      · simp at ht''
  have hacyc : Acyclic
      [{ id := "b", description := "B", dependencies := ["a"] },
       { id := "a", description := "A" }] := by
    intro x hx
    have hhead := (Relation.TransGen.head'_iff.mp hx)
    have htail := (Relation.TransGen.tail'_iff.mp hx)
    rcases hhead with ⟨b1, hb1, _⟩
    rcases htail with ⟨b2, _, hb2⟩
    have h1 := (hedge x b1 hb1).1
    have h2 := (hedge b2 x hb2).2
    rw [h1] at h2
    exact absurd h2 (by decide)
  exact optimizePlan_topological
    { id := "p", originalRequest := "r"
      tasks := [{ id := "b", description := "B", dependencies := ["a"] },
                { id := "a", description := "A" }]
      strategy := .sequential } (by decide) hacyc

/-- C5: on a plan with distinct task ids whose dependency graph contains a
cycle, `optimizePlan` terminates with the circular-dependency error, naming
a task id of the plan — it neither loops (the fuel marker is refuted) nor
returns a plan with tasks dropped. -/
theorem optimizePlan_cycle_error (plan : TaskPlan)
    (hnodup : (idsOf plan.tasks).Nodup)
    (hcyc : ∃ x, Relation.TransGen (IdDep plan.tasks) x x) :
    ∃ c, optimizePlan plan = .error (.circular c) ∧ c ∈ idsOf plan.tasks := by
  obtain ⟨x, hx⟩ := hcyc
  cases hres : topologicalSort plan.tasks with
  | ok sorted =>
    have := topologicalSort_ordering hnodup hres x x hx
    omega
  | error e =>
    obtain ⟨c, rfl, hc⟩ := topologicalSort_error_circular hres
    refine ⟨c, ?_, hc⟩
    unfold optimizePlan
    rw [hres]

/-- Witness for C5: a two-task cycle a ↔ b yields the circular error. -/
theorem optimizePlan_cycle_error_witness :
    ∃ c, optimizePlan
        { id := "p", originalRequest := "r"
          tasks := [{ id := "a", description := "A", dependencies := ["b"] },
                    { id := "b", description := "B", dependencies := ["a"] }]
          strategy := .sequential } = .error (.circular c) ∧
      c ∈ idsOf [{ id := "a", description := "A", dependencies := ["b"] },
                 { id := "b", description := "B", dependencies := ["a"] }] := by
  have hab : IdDep
      [{ id := "a", description := "A", dependencies := ["b"] },
       { id := "b", description := "B", dependencies := ["a"] }] "a" "b" :=
    ⟨{ id := "a", description := "A", dependencies := ["b"] },
      List.mem_cons_self _ _, rfl, by simp, by decide⟩
  have hba : IdDep
      [{ id := "a", description := "A", dependencies := ["b"] },
       { id := "b", description := "B", dependencies := ["a"] }] "b" "a" :=
    ⟨{ id := "b", description := "B", dependencies := ["a"] },
      by simp, rfl, by simp, by decide⟩
  exact optimizePlan_cycle_error
    { id := "p", originalRequest := "r"
      tasks := [{ id := "a", description := "A", dependencies := ["b"] },
                { id := "b", description := "B", dependencies := ["a"] }]
      strategy := .sequential } (by decide)
    ⟨"a", Relation.TransGen.tail (Relation.TransGen.single hab) hba⟩

/-! ## Parallel Executor (`src/lib/agent/executor.ts`)

The executor mutates task statuses in place and keeps a results `Map`; here
both live in an explicit `ExecState`. Per-task execution (`executeTask`:
status to `in_progress`, dependency substitution into args, the tool call
through the registry, and the immediate-retry loop) is abstracted to a
deterministic per-task `outcome` oracle — its internals never influence the
scheduling claims verified here, only whether the task finally yields a
value or an error. Concurrency is modelled by the loop structure of the
source: all ready tasks launch together (the synchronous prefix of their
`async` closures runs before any `await` resolves), and the subset of
in-flight tasks that have finished by the next readiness computation is
chosen by a `sched` oracle, defaulting to the earliest-launched task so the
model always makes the progress the real `await`s guarantee; busy-poll
iterations that change nothing are collapsed. The state also records the
observable trace data the claims are about: each launch event with the
result keys present at that instant, the in-flight count at each mixed
batch launch, and the peak in-flight count. -/

/-- JS `Map.set` on an association list. -/
def setAssoc (l : List (String × α)) (k : String) (v : α) :
    List (String × α) :=
  match l with
  | [] => [(k, v)]
  | (k', v') :: rest =>
    if k' = k then (k, v) :: rest else (k', v') :: setAssoc rest k v

/-- JS `Map.get` on an association list. -/
def getAssoc (l : List (String × α)) (k : String) : Option α :=
  (l.find? (fun p => p.1 = k)).map Prod.snd

/-- Keys of an association list. -/
def resultKeys (results : List (String × String)) : List String :=
  results.map Prod.fst

/-- Executor state: pending ids, in-flight ids, the results map, the
`failedTasks` accumulator, the evolving task statuses and error messages,
plus the observable trace described above. -/
structure ExecState where
  pendingIds : List String
  inFlight : List String
  results : List (String × String)
  failedTasks : List String
  statuses : List (String × TStatus)
  errors : List (String × String)
  launches : List (String × List String)
  batchGates : List Nat
  peak : Nat

/-- Current status of a task id. -/
def statusOf (s : ExecState) (id : String) : Option TStatus :=
  getAssoc s.statuses id

/-- Current error message of a task id. -/
def errorOf (s : ExecState) (id : String) : Option String :=
  getAssoc s.errors id

/-- Dependency check (`areDependenciesMet`): no dependencies, or every
dependency id has a recorded result. -/
def areDependenciesMet (t : Task) (results : List (String × String)) : Bool :=
  t.dependencies.all (fun d => (getAssoc results d).isSome)

/-- Launch of one task: remove from pending, add to in-flight, set status
`in_progress` (the start of `executeTask`), and record the launch event
with the result keys visible at that instant. -/
def launchTask (t : Task) (s : ExecState) : ExecState :=
  { s with
    pendingIds := s.pendingIds.erase t.id
    inFlight := s.inFlight ++ [t.id]
    statuses := setAssoc s.statuses t.id .in_progress
    launches := s.launches ++ [(t.id, resultKeys s.results)] }

/-- Launch every ready task (the synchronous prefix of `ready.map(async...)`
runs for all of them before any completion). -/
def launchAll (ready : List Task) (s : ExecState) : ExecState :=
  ready.foldl (fun st t => launchTask t st) s

/-- Completion of one in-flight task with its oracle outcome: record the
result and status `completed`, or the error, status `failed` and a
`failedTasks` entry; either way leave the in-flight set. -/
def completeTask (outcome : String → Except String String) (i : String)
    (s : ExecState) : ExecState :=
  match outcome i with
  | .ok v =>
    { s with
      results := setAssoc s.results i v
      statuses := setAssoc s.statuses i .completed
      inFlight := s.inFlight.erase i }
  | .error e =>
    { s with
      statuses := setAssoc s.statuses i .failed
      errors := setAssoc s.errors i e
      failedTasks := s.failedTasks ++ [i]
      inFlight := s.inFlight.erase i }

/-- Completion of a list of finished tasks, guarded so that each id is
completed at most once. -/
def completeFold (outcome : String → Except String String)
    (ids : List String) (s : ExecState) : ExecState :=
  ids.foldl
    (fun st i => if i ∈ st.inFlight then completeTask outcome i st else st) s

/-- The tasks that have finished by the next readiness computation: the
scheduled ids that are actually in flight, or the earliest-launched task
when the schedule names none (the progress `Promise.race` guarantees). -/
def completeStep (outcome : String → Except String String)
    (scheduled : List String) (s : ExecState) : ExecState :=
  let chosen := scheduled.filter (fun i => i ∈ s.inFlight)
  let chosen := if chosen.isEmpty then s.inFlight.take 1 else chosen
  completeFold outcome chosen s

/-- Ready computation of `executeMixed`: pending tasks whose dependencies
all have results, gated by `inProgress.size < maxParallelTasks` — the gate
reads the current in-flight count once, identically for every candidate. -/
def readyList (tasks : List Task) (maxPar : Nat) (s : ExecState) :
    List Task :=
  tasks.filter (fun t =>
    t.id ∈ s.pendingIds ∧ areDependenciesMet t s.results = true ∧
      s.inFlight.length < maxPar)

/-- Deadlock handling of one remaining task: status `skipped`, the unmet
dependency error, a `failedTasks` entry, and removal from pending. -/
def skipOne (t : Task) (st : ExecState) : ExecState :=
  { st with
    statuses := setAssoc st.statuses t.id .skipped
    errors := setAssoc st.errors t.id "Unmet dependencies or deadlock"
    failedTasks := st.failedTasks ++ [t.id]
    pendingIds := st.pendingIds.erase t.id }

/-- Deadlock branch of `executeMixed`: every remaining pending task is
skipped. -/
def skipRemaining (tasks : List Task) (s : ExecState) : ExecState :=
  (tasks.filter (fun t => t.id ∈ s.pendingIds)).foldl
    (fun st t => skipOne t st) s

/-- The `while` loop of `executeMixed`. Each iteration recomputes the ready
set; if nothing is ready and nothing is in flight it skips the remaining
tasks and stops; otherwise it launches every ready task (recording the
in-flight count gating a non-empty batch), then completes the
oracle-chosen finished subset. Fuel makes the loop total;
`2·|tasks| + 1` is proved sufficient. -/
def executeMixedLoop (tasks : List Task) (maxPar : Nat)
    (outcome : String → Except String String) (sched : Nat → List String) :
    Nat → Nat → ExecState → Option ExecState
  | 0, _, _ => none
  | fuel+1, k, s =>
    if s.pendingIds.length + s.inFlight.length = 0 then some s
    else
      let ready := readyList tasks maxPar s
      if ready.isEmpty ∧ s.inFlight.isEmpty then
        some (skipRemaining tasks s)
      else
        let s1 := launchAll ready s
        let s1' := if ready.isEmpty then s1
          else { s1 with batchGates := s1.batchGates ++ [s.inFlight.length] }
        let s2 := { s1' with peak := max s1'.peak s1'.inFlight.length }
        executeMixedLoop tasks maxPar outcome sched fuel (k+1)
          (completeStep outcome (sched k) s2)

/-- Batch construction of `executeParallel` (`createBatches`): fixed-size
slices in plan order — the same loop shape as `chunkArray`. -/
def createBatches (items : List α) (batchSize : Nat) : List (List α) :=
  chunkArrayLoop batchSize (items.length + 1) items

/-- One parallel batch: all tasks launch, the executor waits for the whole
batch (`Promise.allSettled`), so every launched task completes before the
next batch begins. -/
def runParallelBatch (outcome : String → Except String String)
    (batch : List Task) (s : ExecState) : ExecState :=
  let s1 := launchAll batch s
  let s2 := { s1 with peak := max s1.peak s1.inFlight.length }
  completeFold outcome (batch.map Task.id) s2

/-- Parallel execution (`executeParallel`): batches of size
`maxParallelTasks`, run one after another. Dependencies are not consulted
anywhere on this path. -/
def executeParallel (outcome : String → Except String String) (maxPar : Nat)
    (tasks : List Task) (s : ExecState) : ExecState :=
  (createBatches tasks maxPar).foldl
    (fun st b => runParallelBatch outcome b st) s

/-- Sequential execution (`executeSequential`): strictly in plan order,
stopping at the first failure. -/
def executeSequential (outcome : String → Except String String) :
    List Task → ExecState → ExecState
  | [], s => s
  | t :: ts, s =>
    let sa := launchTask t s
    let sb := { sa with peak := max sa.peak sa.inFlight.length }
    let s1 := completeTask outcome t.id sb
    match outcome t.id with
    | .ok _ => executeSequential outcome ts s1
    | .error _ => s1

/-- Initial executor state for a plan: everything pending, statuses taken
from the task records. -/
def initState (tasks : List Task) : ExecState :=
  { pendingIds := idsOf tasks
    inFlight := []
    results := []
    failedTasks := []
    statuses := tasks.map (fun t => (t.id, t.status))
    errors := []
    launches := []
    batchGates := []
    peak := 0 }

/-- Plan execution (`executePlan`): dispatch on the strategy; success means
no failed tasks. The `maxParCfg` option models the constructor's
`config?.maxParallelTasks || 5` default. `none` is returned only on fuel
exhaustion of the mixed loop, which is proved unreachable. -/
def executePlan (outcome : String → Except String String)
    (sched : Nat → List String) (maxParCfg : Option Nat) (plan : TaskPlan) :
    Option (Bool × ExecState) :=
  let maxPar := jsOr maxParCfg 5
  let s0 := initState plan.tasks
  let r : Option ExecState :=
    match plan.strategy with
    | .sequential => some (executeSequential outcome plan.tasks s0)
    | .parallel => some (executeParallel outcome maxPar plan.tasks s0)
    | .mixed => executeMixedLoop plan.tasks maxPar outcome sched
        (2 * plan.tasks.length + 1) 0 s0
  match r with
  | none => none
  | some s' => some (s'.failedTasks.isEmpty, s')

/-- Unfolding of `getAssoc` on a cons cell. -/
theorem getAssoc_cons (k' : String) (v' : α) (rest : List (String × α))
    (k : String) :
    getAssoc ((k', v') :: rest) k
      = if k' = k then some v' else getAssoc rest k := by
  by_cases h : k' = k
  · subst h
    simp [getAssoc, List.find?_cons]
  · simp [getAssoc, List.find?_cons, h]

/-- Setting a key makes it readable. -/
theorem getAssoc_setAssoc_self (l : List (String × α)) (k : String) (v : α) :
    getAssoc (setAssoc l k v) k = some v := by
  induction l with
  | nil => simp [setAssoc, getAssoc, List.find?_cons]
  | cons p rest ih =>
    rcases p with ⟨k', v'⟩
    by_cases h : k' = k
    · subst h
      simp [setAssoc, getAssoc_cons]
    · simp only [setAssoc, if_neg h]
      rw [getAssoc_cons, if_neg h]
      exact ih

/-- Setting one key leaves the others unchanged. -/
theorem getAssoc_setAssoc_ne (l : List (String × α)) (k k2 : String) (v : α)
    (h : k2 ≠ k) : getAssoc (setAssoc l k v) k2 = getAssoc l k2 := by
  induction l with
  | nil =>
    simp [setAssoc, getAssoc, List.find?_cons, Ne.symm h]
  | cons p rest ih =>
    rcases p with ⟨k', v'⟩
    by_cases hk : k' = k
    · subst hk
      rw [setAssoc, if_pos rfl, getAssoc_cons, getAssoc_cons,
        if_neg (fun he => h he.symm)]
      rw [if_neg (fun he => h he.symm)]
    · rw [setAssoc, if_neg hk, getAssoc_cons, getAssoc_cons]
      by_cases h2 : k' = k2
      · rw [if_pos h2, if_pos h2]
      · rw [if_neg h2, if_neg h2]
        exact ih

/-- Readable keys appear among the list's keys. -/
theorem mem_keys_of_getAssoc_isSome {l : List (String × α)} {k : String}
    (h : (getAssoc l k).isSome) : k ∈ l.map Prod.fst := by
  induction l with
  | nil => simp [getAssoc] at h
  | cons p rest ih =>
    rcases p with ⟨k', v'⟩
    rw [getAssoc_cons] at h
    by_cases hk : k' = k
    · subst hk
      simp
    · rw [if_neg hk] at h
      simpa using Or.inr (ih h)

/-- Set keys stay readable. -/
theorem getAssoc_setAssoc_isSome {l : List (String × α)} {k k2 : String}
    {v : α} (h : (getAssoc l k2).isSome) :
    (getAssoc (setAssoc l k v) k2).isSome := by
  by_cases hk : k2 = k
  · subst hk
    rw [getAssoc_setAssoc_self]
    rfl
  · rw [getAssoc_setAssoc_ne l k k2 v hk]
    exact h

/-- Scheduler invariant of the mixed loop, carried through every launch,
completion and skip: pending ids are unique plan ids; `pending` status
means membership in the pending set and `in_progress` status membership in
the in-flight set; every plan task has a status; skipped tasks carry the
deadlock error and a `failedTasks` entry; all recorded batch gates are
below the concurrency limit; and every recorded launch event already held
results for all of the launched task's dependencies. -/
structure MixedInv (tasks : List Task) (maxPar : Nat) (s : ExecState) :
    Prop where
  pend_nodup : s.pendingIds.Nodup
  pend_sub : ∀ x ∈ s.pendingIds, x ∈ idsOf tasks
  q_pending : ∀ id, statusOf s id = some .pending → id ∈ s.pendingIds
  r_inflight : ∀ id, statusOf s id = some .in_progress → id ∈ s.inFlight
  st_total : ∀ t ∈ tasks, (statusOf s t.id).isSome
  p_skipped : ∀ id, statusOf s id = some .skipped →
    errorOf s id = some "Unmet dependencies or deadlock" ∧
      id ∈ s.failedTasks
  gates_ok : ∀ g ∈ s.batchGates, g < maxPar
  launches_ok : ∀ p ∈ s.launches, ∀ t ∈ tasks, t.id = p.1 →
    ∀ d ∈ t.dependencies, d ∈ p.2

/-- One launch preserves the scheduler invariant and performs exactly the
expected bookkeeping. -/
theorem launchTask_spec {tasks : List Task} {maxPar : Nat} {s : ExecState}
    {t : Task} (hnodupT : (idsOf tasks).Nodup)
    (hinv : MixedInv tasks maxPar s) (ht : t ∈ tasks)
    (hpend : t.id ∈ s.pendingIds)
    (hdeps : areDependenciesMet t s.results = true) :
    MixedInv tasks maxPar (launchTask t s) ∧
      (launchTask t s).pendingIds = s.pendingIds.erase t.id ∧
      (launchTask t s).pendingIds.length + 1 = s.pendingIds.length ∧
      (launchTask t s).inFlight = s.inFlight ++ [t.id] ∧
      (launchTask t s).results = s.results ∧
      (launchTask t s).batchGates = s.batchGates ∧
      (launchTask t s).peak = s.peak ∧
      (launchTask t s).failedTasks = s.failedTasks ∧
      (launchTask t s).errors = s.errors := by
  refine ⟨?_, rfl, ?_, rfl, rfl, rfl, rfl, rfl, rfl⟩
  · refine
      { pend_nodup := hinv.pend_nodup.erase t.id
        pend_sub := ?_
        q_pending := ?_
        r_inflight := ?_
        st_total := ?_
        p_skipped := ?_
        gates_ok := hinv.gates_ok
        launches_ok := ?_ }
    · intro x hx
      exact hinv.pend_sub x (List.mem_of_mem_erase hx)
    · intro id hid
      have hid' : getAssoc (setAssoc s.statuses t.id .in_progress) id
          = some .pending := hid
      show id ∈ s.pendingIds.erase t.id
      by_cases he : id = t.id
      · subst he
        rw [getAssoc_setAssoc_self] at hid'
        cases hid'
      · rw [getAssoc_setAssoc_ne _ _ _ _ he] at hid'
        exact (List.mem_erase_of_ne he).mpr (hinv.q_pending id hid')
    · intro id hid
      have hid' : getAssoc (setAssoc s.statuses t.id .in_progress) id
          = some .in_progress := hid
      show id ∈ s.inFlight ++ [t.id]
      by_cases he : id = t.id
      · subst he
        simp
      · rw [getAssoc_setAssoc_ne _ _ _ _ he] at hid'
        exact List.mem_append_left _ (hinv.r_inflight id hid')
    · intro u hu
      exact getAssoc_setAssoc_isSome (hinv.st_total u hu)
    · intro id hid
      have hid' : getAssoc (setAssoc s.statuses t.id .in_progress) id
          = some .skipped := hid
      by_cases he : id = t.id
      · subst he
        rw [getAssoc_setAssoc_self] at hid'
        cases hid'
      · rw [getAssoc_setAssoc_ne _ _ _ _ he] at hid'
        exact hinv.p_skipped id hid'
    · intro p hp u hu hid
      rcases List.mem_append.mp hp with hp' | hp'
      · exact hinv.launches_ok p hp' u hu hid
      · rw [List.mem_singleton] at hp'
        subst hp'
        intro d hd
        have hut : u = t :=
          List.inj_on_of_nodup_map hnodupT hu ht hid
        subst hut
        have := (List.all_eq_true.mp hdeps) d hd
        show d ∈ resultKeys s.results
        exact mem_keys_of_getAssoc_isSome (by simpa using this)
  · show (s.pendingIds.erase t.id).length + 1 = s.pendingIds.length
    have h1 := List.length_erase_of_mem hpend
    have h2 := List.length_pos_of_mem hpend
    omega

/-- Launching a duplicate-free batch of pending, dependency-satisfied tasks
preserves the invariant, moves exactly the batch from pending to the tail
of the in-flight list, and touches nothing else. -/
theorem launchAll_spec {tasks : List Task} {maxPar : Nat}
    (hnodupT : (idsOf tasks).Nodup) :
    ∀ (ready : List Task) (s : ExecState), MixedInv tasks maxPar s →
      (∀ t ∈ ready, t ∈ tasks) →
      (∀ t ∈ ready, t.id ∈ s.pendingIds) →
      (∀ t ∈ ready, areDependenciesMet t s.results = true) →
      (ready.map Task.id).Nodup →
      MixedInv tasks maxPar (launchAll ready s) ∧
        (launchAll ready s).pendingIds.length + ready.length
          = s.pendingIds.length ∧
        (launchAll ready s).inFlight = s.inFlight ++ ready.map Task.id ∧
        (launchAll ready s).results = s.results ∧
        (launchAll ready s).batchGates = s.batchGates ∧
        (launchAll ready s).peak = s.peak ∧
        (launchAll ready s).failedTasks = s.failedTasks ∧
        (launchAll ready s).errors = s.errors := by
  intro ready
  induction ready with
  | nil =>
    intro s hinv _ _ _ _
    exact ⟨hinv, by simp [launchAll], by simp [launchAll], rfl, rfl, rfl,
      rfl, rfl⟩
  | cons t rest ih =>
    intro s hinv hmem hpend hdeps hnd
    obtain ⟨hinv1, hp1, hl1, hfl1, hr1, hg1, hpk1, hft1, he1⟩ :=
      launchTask_spec hnodupT hinv (hmem t (List.mem_cons_self _ _))
        (hpend t (List.mem_cons_self _ _))
        (hdeps t (List.mem_cons_self _ _))
    have hstep : launchAll (t :: rest) s = launchAll rest (launchTask t s) :=
      rfl
    have hnd' : (rest.map Task.id).Nodup := by
      rw [List.map_cons] at hnd
      exact hnd.of_cons
    have htid : t.id ∉ rest.map Task.id := by
      rw [List.map_cons] at hnd
      exact (List.nodup_cons.mp hnd).1
    obtain ⟨hinv', hp', hfl', hr', hg', hpk', hft', he'⟩ :=
      ih (launchTask t s) hinv1
        (fun u hu => hmem u (List.mem_cons_of_mem _ hu))
        (fun u hu => by
          rw [hp1]
          refine (List.mem_erase_of_ne ?_).mpr
            (hpend u (List.mem_cons_of_mem _ hu))
          intro he
          exact htid (he ▸ List.mem_map_of_mem Task.id hu))
        (fun u hu => by
          rw [hr1]
          exact hdeps u (List.mem_cons_of_mem _ hu))
        hnd'
    rw [hstep]
    refine ⟨hinv', ?_, ?_, by rw [hr', hr1], by rw [hg', hg1],
      by rw [hpk', hpk1], by rw [hft', hft1], by rw [he', he1]⟩
    · simp only [List.length_cons]
      omega
    · rw [hfl', hfl1, List.map_cons, List.append_assoc]
      rfl

/-- One completion preserves the scheduler invariant, erases the task from
the in-flight set, grows `failedTasks` at most by that task, and leaves the
pending set and the trace fields unchanged. -/
theorem completeTask_spec {tasks : List Task} {maxPar : Nat} {s : ExecState}
    (outcome : String → Except String String) (i : String)
    (hinv : MixedInv tasks maxPar s) :
    MixedInv tasks maxPar (completeTask outcome i s) ∧
      (completeTask outcome i s).pendingIds = s.pendingIds ∧
      (completeTask outcome i s).inFlight = s.inFlight.erase i ∧
      (completeTask outcome i s).launches = s.launches ∧
      (completeTask outcome i s).batchGates = s.batchGates ∧
      (completeTask outcome i s).peak = s.peak ∧
      (∀ x ∈ s.failedTasks, x ∈ (completeTask outcome i s).failedTasks) := by
  cases hout : outcome i with
  | ok v =>
    simp only [completeTask, hout]
    refine ⟨?_, trivial, trivial, trivial, trivial, trivial, fun x hx => hx⟩
    refine
      { pend_nodup := hinv.pend_nodup
        pend_sub := hinv.pend_sub
        q_pending := ?_
        r_inflight := ?_
        st_total := fun u hu => getAssoc_setAssoc_isSome (hinv.st_total u hu)
        p_skipped := ?_
        gates_ok := hinv.gates_ok
        launches_ok := hinv.launches_ok }
    · intro id hid
      have hid' : getAssoc (setAssoc s.statuses i .completed) id
          = some .pending := hid
      by_cases he : id = i
      · subst he
        rw [getAssoc_setAssoc_self] at hid'
        cases hid'
      · rw [getAssoc_setAssoc_ne _ _ _ _ he] at hid'
        exact hinv.q_pending id hid'
    · intro id hid
      have hid' : getAssoc (setAssoc s.statuses i .completed) id
          = some .in_progress := hid
      by_cases he : id = i
      · subst he
        rw [getAssoc_setAssoc_self] at hid'
        cases hid'
      · rw [getAssoc_setAssoc_ne _ _ _ _ he] at hid'
        exact (List.mem_erase_of_ne he).mpr (hinv.r_inflight id hid')
    · intro id hid
      have hid' : getAssoc (setAssoc s.statuses i .completed) id
          = some .skipped := hid
      by_cases he : id = i
      · subst he
        rw [getAssoc_setAssoc_self] at hid'
        cases hid'
      · rw [getAssoc_setAssoc_ne _ _ _ _ he] at hid'
        exact hinv.p_skipped id hid'
  | error e =>
    simp only [completeTask, hout]
    refine ⟨?_, trivial, trivial, trivial, trivial, trivial,
      fun x hx => List.mem_append_left _ hx⟩
    refine
      { pend_nodup := hinv.pend_nodup
        pend_sub := hinv.pend_sub
        q_pending := ?_
        r_inflight := ?_
        st_total := fun u hu => getAssoc_setAssoc_isSome (hinv.st_total u hu)
        p_skipped := ?_
        gates_ok := hinv.gates_ok
        launches_ok := hinv.launches_ok }
    · intro id hid
      have hid' : getAssoc (setAssoc s.statuses i .failed) id
          = some .pending := hid
      by_cases he : id = i
      · subst he
        rw [getAssoc_setAssoc_self] at hid'
        cases hid'
      · rw [getAssoc_setAssoc_ne _ _ _ _ he] at hid'
        exact hinv.q_pending id hid'
    · intro id hid
      have hid' : getAssoc (setAssoc s.statuses i .failed) id
          = some .in_progress := hid
      by_cases he : id = i
      · subst he
        rw [getAssoc_setAssoc_self] at hid'
        cases hid'
      · rw [getAssoc_setAssoc_ne _ _ _ _ he] at hid'
        exact (List.mem_erase_of_ne he).mpr (hinv.r_inflight id hid')
    · intro id hid
      have hid' : getAssoc (setAssoc s.statuses i .failed) id
          = some .skipped := hid
      by_cases he : id = i
      · subst he
        rw [getAssoc_setAssoc_self] at hid'
        cases hid'
      · rw [getAssoc_setAssoc_ne _ _ _ _ he] at hid'
        obtain ⟨herr, hfl⟩ := hinv.p_skipped id hid'
        refine ⟨?_, List.mem_append_left _ hfl⟩
        show getAssoc (setAssoc s.errors i e) id = _
        rw [getAssoc_setAssoc_ne _ _ _ _ he]
        exact herr

/-- Completion folds preserve the invariant, never grow the in-flight set,
only append to `failedTasks`, and leave pending and trace fields
unchanged. -/
theorem completeFold_spec {tasks : List Task} {maxPar : Nat}
    (outcome : String → Except String String) :
    ∀ (ids : List String) (s : ExecState), MixedInv tasks maxPar s →
      MixedInv tasks maxPar (completeFold outcome ids s) ∧
        (completeFold outcome ids s).pendingIds = s.pendingIds ∧
        (completeFold outcome ids s).inFlight.length
          ≤ s.inFlight.length ∧
        (completeFold outcome ids s).launches = s.launches ∧
        (completeFold outcome ids s).batchGates = s.batchGates ∧
        (completeFold outcome ids s).peak = s.peak ∧
        (∀ x ∈ s.failedTasks,
          x ∈ (completeFold outcome ids s).failedTasks) := by
  intro ids
  induction ids with
  | nil =>
    intro s hinv
    exact ⟨hinv, rfl, Nat.le_refl _, rfl, rfl, rfl, fun x hx => hx⟩
  | cons i rest ih =>
    intro s hinv
    have hstep : completeFold outcome (i :: rest) s
        = completeFold outcome rest
            (if i ∈ s.inFlight then completeTask outcome i s else s) := rfl
    rw [hstep]
    by_cases hm : i ∈ s.inFlight
    · rw [if_pos hm]
      obtain ⟨hinv1, hp1, hfl1, hl1, hg1, hpk1, hft1⟩ :=
        completeTask_spec outcome i hinv
      obtain ⟨hinv', hp', hfl', hl', hg', hpk', hft'⟩ :=
        ih (completeTask outcome i s) hinv1
      refine ⟨hinv', hp'.trans hp1, ?_, hl'.trans hl1, hg'.trans hg1,
        hpk'.trans hpk1, fun x hx => hft' x (hft1 x hx)⟩
      rw [hfl1] at hfl'
      have := List.length_erase_of_mem hm
      omega
    · rw [if_neg hm]
      exact ih s hinv

/-- A completion fold whose first id is in flight strictly shrinks the
in-flight set. -/
theorem completeFold_progress {tasks : List Task} {maxPar : Nat}
    (outcome : String → Except String String) {i : String}
    {rest : List String} {s : ExecState} (hinv : MixedInv tasks maxPar s)
    (hm : i ∈ s.inFlight) :
    (completeFold outcome (i :: rest) s).inFlight.length
      < s.inFlight.length := by
  have hstep : completeFold outcome (i :: rest) s
      = completeFold outcome rest
          (if i ∈ s.inFlight then completeTask outcome i s else s) := rfl
  rw [hstep, if_pos hm]
  obtain ⟨hinv1, _, hfl1, _, _, _, _⟩ := completeTask_spec outcome i hinv
  obtain ⟨_, _, hfl', _, _, _, _⟩ :=
    completeFold_spec outcome rest (completeTask outcome i s) hinv1
  rw [hfl1] at hfl'
  have h1 := List.length_erase_of_mem hm
  have h2 := List.length_pos_of_mem hm
  omega

/-- Folding completions over exactly the in-flight ids drains the in-flight
set. -/
theorem completeFold_drain (outcome : String → Except String String) :
    ∀ (ids : List String) (s : ExecState), s.inFlight = ids → ids.Nodup →
      (completeFold outcome ids s).inFlight = [] := by
  intro ids
  induction ids with
  | nil =>
    intro s hfl _
    exact hfl
  | cons i rest ih =>
    intro s hfl hnd
    have hm : i ∈ s.inFlight := by rw [hfl]; exact List.mem_cons_self _ _
    have hstep : completeFold outcome (i :: rest) s
        = completeFold outcome rest
            (if i ∈ s.inFlight then completeTask outcome i s else s) := rfl
    rw [hstep, if_pos hm]
    refine ih (completeTask outcome i s) ?_ hnd.of_cons
    have : (completeTask outcome i s).inFlight = s.inFlight.erase i := by
      cases hout : outcome i <;> simp [completeTask, hout]
    rw [this, hfl, List.erase_cons_head]

/-- Membership in the ready list unpacks to the filter's three conditions
plus plan membership. -/
theorem readyList_facts {tasks : List Task} {maxPar : Nat} {s : ExecState}
    {t : Task} (ht : t ∈ readyList tasks maxPar s) :
    t ∈ tasks ∧ t.id ∈ s.pendingIds ∧
      areDependenciesMet t s.results = true ∧
      s.inFlight.length < maxPar := by
  have h := List.mem_filter.mp ht
  exact ⟨h.1, of_decide_eq_true h.2⟩

/-- Ready tasks have duplicate-free ids when the plan does. -/
theorem readyList_nodup {tasks : List Task} {maxPar : Nat} {s : ExecState}
    (hnodupT : (idsOf tasks).Nodup) :
    ((readyList tasks maxPar s).map Task.id).Nodup :=
  hnodupT.sublist ((List.filter_sublist tasks).map Task.id)

/-- Recording a gate below the limit preserves the invariant. -/
theorem MixedInv.withGates {tasks : List Task} {maxPar : Nat}
    {s : ExecState} (hinv : MixedInv tasks maxPar s) {g : Nat}
    (hg : g < maxPar) :
    MixedInv tasks maxPar { s with batchGates := s.batchGates ++ [g] } :=
  { pend_nodup := hinv.pend_nodup
    pend_sub := hinv.pend_sub
    q_pending := hinv.q_pending
    r_inflight := hinv.r_inflight
    st_total := hinv.st_total
    p_skipped := hinv.p_skipped
    gates_ok := by
      intro g' hg'
      rcases List.mem_append.mp hg' with h | h
      · exact hinv.gates_ok g' h
      · rw [List.mem_singleton] at h
        exact h ▸ hg
    launches_ok := hinv.launches_ok }

/-- Updating the peak counter preserves the invariant. -/
theorem MixedInv.withPeak {tasks : List Task} {maxPar : Nat}
    {s : ExecState} (hinv : MixedInv tasks maxPar s) (p : Nat) :
    MixedInv tasks maxPar { s with peak := p } :=
  { pend_nodup := hinv.pend_nodup
    pend_sub := hinv.pend_sub
    q_pending := hinv.q_pending
    r_inflight := hinv.r_inflight
    st_total := hinv.st_total
    p_skipped := hinv.p_skipped
    gates_ok := hinv.gates_ok
    launches_ok := hinv.launches_ok }

/-- The completion step preserves the invariant, leaves pending and trace
fields unchanged, never grows the in-flight set, and strictly shrinks it
whenever something is in flight. -/
theorem completeStep_spec {tasks : List Task} {maxPar : Nat}
    (outcome : String → Except String String) (sch : List String)
    {s : ExecState} (hinv : MixedInv tasks maxPar s) :
    MixedInv tasks maxPar (completeStep outcome sch s) ∧
      (completeStep outcome sch s).pendingIds = s.pendingIds ∧
      (completeStep outcome sch s).launches = s.launches ∧
      (completeStep outcome sch s).batchGates = s.batchGates ∧
      (completeStep outcome sch s).peak = s.peak ∧
      (completeStep outcome sch s).inFlight.length ≤ s.inFlight.length ∧
      (s.inFlight ≠ [] →
        (completeStep outcome sch s).inFlight.length
          < s.inFlight.length) := by
  by_cases hemp : (sch.filter (fun i => i ∈ s.inFlight)).isEmpty
  · have hch : completeStep outcome sch s
        = completeFold outcome (s.inFlight.take 1) s := by
      simp only [completeStep, if_pos hemp]
    rw [hch]
    obtain ⟨hinv', hp', hfl', hl', hg', hpk', _⟩ :=
      completeFold_spec outcome (s.inFlight.take 1) s hinv
    refine ⟨hinv', hp', hl', hg', hpk', hfl', ?_⟩
    intro hne
    obtain ⟨i, rest, hifl⟩ := List.exists_cons_of_ne_nil hne
    rw [show List.take 1 s.inFlight = [i] from by rw [hifl]; rfl]
    exact completeFold_progress outcome hinv
      (by rw [hifl]; exact List.mem_cons_self _ _)
  · have hch : completeStep outcome sch s
        = completeFold outcome (sch.filter (fun i => i ∈ s.inFlight)) s := by
      simp only [completeStep, if_neg hemp]
    rw [hch]
    obtain ⟨hinv', hp', hfl', hl', hg', hpk', _⟩ :=
      completeFold_spec outcome (sch.filter (fun i => i ∈ s.inFlight)) s hinv
    refine ⟨hinv', hp', hl', hg', hpk', hfl', ?_⟩
    intro _
    have hne2 : sch.filter (fun i => i ∈ s.inFlight) ≠ [] := by
      intro h
      exact hemp (by rw [h]; rfl)
    obtain ⟨c, cs, hflt⟩ := List.exists_cons_of_ne_nil hne2
    rw [hflt]
    have hc : c ∈ s.inFlight := by
      have hmem : c ∈ sch.filter (fun i => i ∈ s.inFlight) := by
        rw [hflt]; exact List.mem_cons_self _ _
      exact of_decide_eq_true (List.mem_filter.mp hmem).2
    exact completeFold_progress outcome hinv hc

/-- Characterization of the skip fold over a duplicate-free task list `F`
from a duplicate-free pending set: trace and in-flight fields are
untouched, ids outside `F` keep their status and error, ids of `F` become
skipped with the deadlock error and a `failedTasks` entry, and every
surviving pending id was pending before and is not an id of `F`. -/
theorem skipFold_spec :
    ∀ (F : List Task) (st : ExecState), (F.map Task.id).Nodup →
      st.pendingIds.Nodup →
      (F.foldl (fun st t => skipOne t st) st).inFlight = st.inFlight ∧
      (F.foldl (fun st t => skipOne t st) st).launches = st.launches ∧
      (F.foldl (fun st t => skipOne t st) st).batchGates = st.batchGates ∧
      (F.foldl (fun st t => skipOne t st) st).peak = st.peak ∧
      (F.foldl (fun st t => skipOne t st) st).results = st.results ∧
      (∀ x ∈ st.failedTasks,
        x ∈ (F.foldl (fun st t => skipOne t st) st).failedTasks) ∧
      (∀ id, id ∉ F.map Task.id →
        statusOf (F.foldl (fun st t => skipOne t st) st) id = statusOf st id ∧
        errorOf (F.foldl (fun st t => skipOne t st) st) id = errorOf st id) ∧
      (∀ id ∈ F.map Task.id,
        statusOf (F.foldl (fun st t => skipOne t st) st) id
            = some .skipped ∧
        errorOf (F.foldl (fun st t => skipOne t st) st) id
            = some "Unmet dependencies or deadlock" ∧
        id ∈ (F.foldl (fun st t => skipOne t st) st).failedTasks) ∧
      ((F.foldl (fun st t => skipOne t st) st).pendingIds.Nodup ∧
        ∀ x ∈ (F.foldl (fun st t => skipOne t st) st).pendingIds,
          x ∈ st.pendingIds ∧ x ∉ F.map Task.id) := by
  intro F
  induction F with
  | nil =>
    intro st _ hpnd
    refine ⟨rfl, rfl, rfl, rfl, rfl, fun x hx => hx, fun id _ => ⟨rfl, rfl⟩,
      by simp, hpnd, fun x hx => ⟨hx, by simp⟩⟩
  | cons t F ih =>
    intro st hnd hpnd
    have hstep : (t :: F).foldl (fun st t => skipOne t st) st
        = F.foldl (fun st t => skipOne t st) (skipOne t st) := rfl
    have hnd' : (F.map Task.id).Nodup := by
      rw [List.map_cons] at hnd
      exact hnd.of_cons
    have htid : t.id ∉ F.map Task.id := by
      rw [List.map_cons] at hnd
      exact (List.nodup_cons.mp hnd).1
    have hpnd1 : (skipOne t st).pendingIds.Nodup :=
      hpnd.erase t.id
    obtain ⟨hifl, hla, hga, hpk, hre, hfm, hout, hin, hpn, hpm⟩ :=
      ih (skipOne t st) hnd' hpnd1
    rw [hstep]
    refine ⟨hifl, hla, hga, hpk, hre, ?_, ?_, ?_, hpn, ?_⟩
    · intro x hx
      exact hfm x (List.mem_append_left _ hx)
    · intro id hid
      have hne : id ≠ t.id := by
        intro he
        exact hid (he ▸ by simp)
      have hidF : id ∉ F.map Task.id := by
        intro h
        exact hid (List.mem_cons_of_mem _ (by simpa using h))
      obtain ⟨hs, he⟩ := hout id hidF
      refine ⟨?_, ?_⟩
      · rw [hs]
        show getAssoc (setAssoc st.statuses t.id .skipped) id = _
        rw [getAssoc_setAssoc_ne _ _ _ _ hne]
        rfl
      · rw [he]
        show getAssoc (setAssoc st.errors t.id _) id = _
        rw [getAssoc_setAssoc_ne _ _ _ _ hne]
        rfl
    · intro id hid
      rw [List.map_cons] at hid
      rcases List.mem_cons.mp hid with rfl | hid'
      · obtain ⟨hs, he⟩ := hout t.id htid
        refine ⟨?_, ?_, ?_⟩
        · rw [hs]
          exact getAssoc_setAssoc_self _ _ _
        · rw [he]
          exact getAssoc_setAssoc_self _ _ _
        · exact hfm t.id (List.mem_append_right _ (by simp))
      · exact hin id hid'
    · intro x hx
      obtain ⟨hx1, hx2⟩ := hpm x hx
      have hx3 := List.mem_of_mem_erase hx1
      refine ⟨hx3, ?_⟩
      rw [List.map_cons]
      intro h
      rcases List.mem_cons.mp h with rfl | h'
      · exact (hpnd.mem_erase_iff.mp hx1).1 rfl
      · exact hx2 h'

/-- The deadlock branch empties the pending set, keeps the invariant, and
leaves the in-flight set unchanged. -/
theorem skipRemaining_spec {tasks : List Task} {maxPar : Nat}
    {s : ExecState} (hnodupT : (idsOf tasks).Nodup)
    (hinv : MixedInv tasks maxPar s) :
    MixedInv tasks maxPar (skipRemaining tasks s) ∧
      (skipRemaining tasks s).pendingIds = [] ∧
      (skipRemaining tasks s).inFlight = s.inFlight := by
  have hndF : ((tasks.filter (fun t => t.id ∈ s.pendingIds)).map
      Task.id).Nodup :=
    hnodupT.sublist ((List.filter_sublist tasks).map Task.id)
  obtain ⟨hifl, hla, hga, hpk, hre, hfm, hout, hin, hpn, hpm⟩ :=
    skipFold_spec (tasks.filter (fun t => t.id ∈ s.pendingIds)) s hndF
      hinv.pend_nodup
  have hFid : ∀ x, x ∈ s.pendingIds →
      x ∈ (tasks.filter (fun t => t.id ∈ s.pendingIds)).map Task.id := by
    intro x hx
    have hxid := hinv.pend_sub x hx
    rcases List.mem_map.mp hxid with ⟨u, hu, huid⟩
    refine List.mem_map.mpr ⟨u, ?_, huid⟩
    refine List.mem_filter.mpr ⟨hu, ?_⟩
    rw [huid]
    exact decide_eq_true hx
  have hifl' : (skipRemaining tasks s).inFlight = s.inFlight := hifl
  have hla' : (skipRemaining tasks s).launches = s.launches := hla
  have hga' : (skipRemaining tasks s).batchGates = s.batchGates := hga
  have hfm' : ∀ x ∈ s.failedTasks, x ∈ (skipRemaining tasks s).failedTasks :=
    hfm
  have hout' : ∀ id, id ∉ (tasks.filter
      (fun t => t.id ∈ s.pendingIds)).map Task.id →
      statusOf (skipRemaining tasks s) id = statusOf s id ∧
      errorOf (skipRemaining tasks s) id = errorOf s id := hout
  have hin' : ∀ id ∈ (tasks.filter
      (fun t => t.id ∈ s.pendingIds)).map Task.id,
      statusOf (skipRemaining tasks s) id = some .skipped ∧
      errorOf (skipRemaining tasks s) id
        = some "Unmet dependencies or deadlock" ∧
      id ∈ (skipRemaining tasks s).failedTasks := hin
  have hpm' : ∀ x ∈ (skipRemaining tasks s).pendingIds,
      x ∈ s.pendingIds ∧ x ∉ (tasks.filter
        (fun t => t.id ∈ s.pendingIds)).map Task.id := hpm
  have hpend : (skipRemaining tasks s).pendingIds = [] := by
    rw [List.eq_nil_iff_forall_not_mem]
    intro x hx
    obtain ⟨hx1, hx2⟩ := hpm' x hx
    exact hx2 (hFid x hx1)
  refine ⟨?_, hpend, hifl'⟩
  refine
    { pend_nodup := ?_
      pend_sub := ?_
      q_pending := ?_
      r_inflight := ?_
      st_total := ?_
      p_skipped := ?_
      gates_ok := ?_
      launches_ok := ?_ }
  · rw [hpend]
    exact List.nodup_nil
  · intro x hx
    rw [hpend] at hx
    cases hx
  · intro id hid
    by_cases hmem : id ∈ (tasks.filter
        (fun t => t.id ∈ s.pendingIds)).map Task.id
    · rw [(hin' id hmem).1] at hid
      cases hid
    · rw [(hout' id hmem).1] at hid
      exact absurd (hFid id (hinv.q_pending id hid)) hmem
  · intro id hid
    by_cases hmem : id ∈ (tasks.filter
        (fun t => t.id ∈ s.pendingIds)).map Task.id
    · rw [(hin' id hmem).1] at hid
      cases hid
    · rw [(hout' id hmem).1] at hid
      rw [hifl']
      exact hinv.r_inflight id hid
  · intro u hu
    by_cases hmem : u.id ∈ (tasks.filter
        (fun t => t.id ∈ s.pendingIds)).map Task.id
    · rw [(hin' u.id hmem).1]
      rfl
    · rw [(hout' u.id hmem).1]
      exact hinv.st_total u hu
  · intro id hid
    by_cases hmem : id ∈ (tasks.filter
        (fun t => t.id ∈ s.pendingIds)).map Task.id
    · exact ⟨(hin' id hmem).2.1, (hin' id hmem).2.2⟩
    · rw [(hout' id hmem).1] at hid
      obtain ⟨herr, hfl⟩ := hinv.p_skipped id hid
      exact ⟨(hout' id hmem).2.trans herr, hfm' id hfl⟩
  · rw [hga']
    exact hinv.gates_ok
  · rw [hla']
    exact hinv.launches_ok

/-- Master lemma for the mixed loop: with the invariant and fuel at least
`2·|pending| + |inFlight| + 1` the loop yields a final state (never the
fuel marker), in which nothing is pending or in flight and the invariant
still holds. -/
theorem executeMixedLoop_spec {tasks : List Task} {maxPar : Nat}
    (outcome : String → Except String String) (sched : Nat → List String)
    (hnodupT : (idsOf tasks).Nodup) :
    ∀ (fuel k : Nat) (s : ExecState), MixedInv tasks maxPar s →
      2 * s.pendingIds.length + s.inFlight.length + 1 ≤ fuel →
      ∃ s', executeMixedLoop tasks maxPar outcome sched fuel k s = some s' ∧
        MixedInv tasks maxPar s' ∧ s'.pendingIds = [] ∧ s'.inFlight = [] := by
  intro fuel
  induction fuel with
  | zero =>
    intro k s _ hfuel
    omega
  | succ fuel ih =>
    intro k s hinv hfuel
    by_cases hz : s.pendingIds.length + s.inFlight.length = 0
    · refine ⟨s, ?_, hinv, ?_, ?_⟩
      · simp only [executeMixedLoop, if_pos hz]
      · exact List.length_eq_zero.mp (by omega)
      · exact List.length_eq_zero.mp (by omega)
    · by_cases hrd : (readyList tasks maxPar s).isEmpty ∧ s.inFlight.isEmpty
      · obtain ⟨hinvS, hpS, hiS⟩ := skipRemaining_spec hnodupT hinv
        refine ⟨skipRemaining tasks s, ?_, hinvS, hpS, ?_⟩
        · simp only [executeMixedLoop, if_neg hz]
          rw [if_pos]
          exact hrd
        · rw [hiS]
          exact List.isEmpty_iff.mp hrd.2
      · -- launch-and-complete iteration
        have hmemR : ∀ t ∈ readyList tasks maxPar s, t ∈ tasks :=
          fun t ht => (readyList_facts ht).1
        have hpendR : ∀ t ∈ readyList tasks maxPar s, t.id ∈ s.pendingIds :=
          fun t ht => (readyList_facts ht).2.1
        have hdepR : ∀ t ∈ readyList tasks maxPar s,
            areDependenciesMet t s.results = true :=
          fun t ht => (readyList_facts ht).2.2.1
        obtain ⟨hinv1, hp1, hfl1, hr1, hg1, hpk1, hft1, he1⟩ :=
          launchAll_spec hnodupT (readyList tasks maxPar s) s hinv hmemR
            hpendR hdepR (readyList_nodup hnodupT)
        set s1 := launchAll (readyList tasks maxPar s) s with hs1def
        have hinv1' : MixedInv tasks maxPar
            (if (readyList tasks maxPar s).isEmpty then s1
             else { s1 with batchGates
                := s1.batchGates ++ [s.inFlight.length] }) := by
          by_cases hre : (readyList tasks maxPar s).isEmpty
          · rw [if_pos hre]
            exact hinv1
          · rw [if_neg hre]
            refine hinv1.withGates ?_
            have hne : readyList tasks maxPar s ≠ [] := by
              intro h
              rw [h] at hre
              exact hre rfl
            obtain ⟨t, ht⟩ := List.exists_mem_of_ne_nil _ hne
            exact (readyList_facts ht).2.2.2
        set s1' := if (readyList tasks maxPar s).isEmpty then s1
          else { s1 with batchGates := s1.batchGates ++ [s.inFlight.length] }
          with hdefs1
        have hfields : s1'.pendingIds = s1.pendingIds ∧
            s1'.inFlight = s1.inFlight := by
          by_cases hre : (readyList tasks maxPar s).isEmpty
          · rw [hdefs1, if_pos hre]
            exact ⟨rfl, rfl⟩
          · rw [hdefs1, if_neg hre]
            exact ⟨rfl, rfl⟩
        have hinv2 : MixedInv tasks maxPar
            { s1' with peak := max s1'.peak s1'.inFlight.length } :=
          hinv1'.withPeak _
        obtain ⟨hinv3, hp3, hl3, hg3, hpk3, hfl3, hfl3s⟩ :=
          completeStep_spec outcome (sched k) hinv2
        set s3 := completeStep outcome (sched k)
          { s1' with peak := max s1'.peak s1'.inFlight.length } with hs3def
        have hp3' : s3.pendingIds = s1.pendingIds := by
          rw [hp3]
          exact hfields.1
        have hready_or_inflight :
            readyList tasks maxPar s ≠ [] ∨ s.inFlight ≠ [] := by
          by_cases hre : readyList tasks maxPar s = []
          · right
            intro hfl
            exact hrd ⟨by rw [hre]; rfl, by rw [hfl]; rfl⟩
          · exact Or.inl hre
        have hmeasure : 2 * s3.pendingIds.length + s3.inFlight.length + 1
            ≤ fuel := by
          have hlen1 := hp1
          have hflen : s1'.inFlight.length
              = s.inFlight.length + (readyList tasks maxPar s).length := by
            rw [hfields.2, hfl1, List.length_append, List.length_map]
          rcases hready_or_inflight with hne | hne
          · have hrlen : 1 ≤ (readyList tasks maxPar s).length :=
              List.length_pos_of_ne_nil hne
            have hstrict := hfl3s (by
              intro h
              rw [hfields.2] at h
              rw [hfl1] at h
              rcases List.append_eq_nil.mp h with ⟨_, h2⟩
              exact hne (List.map_eq_nil_iff.mp h2))
            rw [hp3']
            simp only [hflen] at hstrict hfl3
            omega
          · have hilen : 1 ≤ s.inFlight.length :=
              List.length_pos_of_ne_nil hne
            have hstrict := hfl3s (by
              intro h
              rw [hfields.2, hfl1] at h
              rcases List.append_eq_nil.mp h with ⟨h1, _⟩
              exact hne h1)
            rw [hp3']
            simp only [hflen] at hstrict hfl3
            omega
        obtain ⟨s', hrun, hinv', hps', his'⟩ := ih (k + 1) s3 hinv3 hmeasure
        refine ⟨s', ?_, hinv', hps', his'⟩
        simp only [executeMixedLoop, if_neg hz]
        rw [if_neg]
        · exact hrun
        · exact hrd

/-- Keys present in an association list are readable. -/
theorem getAssoc_isSome_of_mem_keys {l : List (String × α)} {k : String}
    (h : k ∈ l.map Prod.fst) : (getAssoc l k).isSome := by
  induction l with
  | nil => simp at h
  | cons p rest ih =>
    rcases p with ⟨k', v'⟩
    rw [getAssoc_cons]
    by_cases hk : k' = k
    · rw [if_pos hk]
      rfl
    · rw [if_neg hk]
      refine ih ?_
      simp only [List.map_cons, List.mem_cons] at h
      rcases h with h | h
      · exact absurd h.symm hk
      · exact h

/-- Reading the status map built from the task list returns some task's
status. -/
theorem getAssoc_statusMap {tasks : List Task} {id : String} {v : TStatus}
    (h : getAssoc (tasks.map (fun t => (t.id, t.status))) id = some v) :
    ∃ t ∈ tasks, t.id = id ∧ t.status = v := by
  induction tasks with
  | nil => simp [getAssoc] at h
  | cons t rest ih =>
    rw [List.map_cons, getAssoc_cons] at h
    by_cases hk : t.id = id
    · rw [if_pos hk] at h
      cases h
      exact ⟨t, List.mem_cons_self _ _, hk, rfl⟩
    · rw [if_neg hk] at h
      obtain ⟨u, hu, huid, huv⟩ := ih h
      exact ⟨u, List.mem_cons_of_mem _ hu, huid, huv⟩

/-- The initial executor state of an all-pending plan satisfies the
scheduler invariant. -/
theorem initState_inv {tasks : List Task} {maxPar : Nat}
    (hnodup : (idsOf tasks).Nodup)
    (hpend0 : ∀ t ∈ tasks, t.status = .pending) :
    MixedInv tasks maxPar (initState tasks) := by
  have hkeys : (tasks.map (fun t => (t.id, t.status))).map Prod.fst
      = idsOf tasks := by
    rw [List.map_map]
    rfl
  refine
    { pend_nodup := hnodup
      pend_sub := fun x hx => hx
      q_pending := ?_
      r_inflight := ?_
      st_total := ?_
      p_skipped := ?_
      gates_ok := by intro g hg; cases hg
      launches_ok := by intro p hp; cases hp }
  · intro id hid
    have h1 : getAssoc (tasks.map (fun t => (t.id, t.status))) id
        = some .pending := hid
    have h2 : (getAssoc (tasks.map (fun t => (t.id, t.status))) id).isSome := by
      rw [h1]
      rfl
    have h3 := mem_keys_of_getAssoc_isSome h2
    rw [hkeys] at h3
    exact h3
  · intro id hid
    obtain ⟨t, ht, _, hst⟩ := getAssoc_statusMap hid
    rw [hpend0 t ht] at hst
    cases hst
  · intro t ht
    refine getAssoc_isSome_of_mem_keys ?_
    show t.id ∈ (tasks.map (fun t => (t.id, t.status))).map Prod.fst
    rw [hkeys]
    exact List.mem_map.mpr ⟨t, ht, rfl⟩
  · intro id hid
    obtain ⟨t, ht, _, hst⟩ := getAssoc_statusMap hid
    rw [hpend0 t ht] at hst
    cases hst

/-- Launching never touches the peak counter. -/
theorem launchAll_peak (ready : List Task) :
    ∀ s : ExecState, (launchAll ready s).peak = s.peak := by
  induction ready with
  | nil => intro s; rfl
  | cons t rest ih => intro s; exact ih (launchTask t s)

/-- Launching appends exactly the batch ids to the in-flight list. -/
theorem launchAll_inFlight (ready : List Task) :
    ∀ s : ExecState,
      (launchAll ready s).inFlight = s.inFlight ++ ready.map Task.id := by
  induction ready with
  | nil => intro s; simp [launchAll]
  | cons t rest ih =>
    intro s
    have : launchAll (t :: rest) s = launchAll rest (launchTask t s) := rfl
    rw [this, ih, List.map_cons]
    show s.inFlight ++ [t.id] ++ rest.map Task.id = _
    rw [List.append_assoc]
    rfl

/-- Completion folds never touch the peak counter. -/
theorem completeFold_peak (outcome : String → Except String String) :
    ∀ (ids : List String) (s : ExecState),
      (completeFold outcome ids s).peak = s.peak := by
  intro ids
  induction ids with
  | nil => intro s; rfl
  | cons i rest ih =>
    intro s
    have hstep : completeFold outcome (i :: rest) s
        = completeFold outcome rest
            (if i ∈ s.inFlight then completeTask outcome i s else s) := rfl
    rw [hstep, ih]
    by_cases hm : i ∈ s.inFlight
    · rw [if_pos hm]
      cases hout : outcome i <;> simp [completeTask, hout]
    · rw [if_neg hm]

/-- Every chunk produced by the chunking loop fits the chunk size. -/
theorem chunkArrayLoop_length_le {size : Nat} :
    ∀ (fuel : Nat) (l : List α) (b : List α),
      b ∈ chunkArrayLoop size fuel l → b.length ≤ size := by
  intro fuel
  induction fuel with
  | zero =>
    intro l b hb
    simp [chunkArrayLoop] at hb
  | succ fuel ih =>
    intro l b hb
    cases l with
    | nil => simp [chunkArrayLoop] at hb
    | cons x xs =>
      have heq : chunkArrayLoop size (fuel + 1) (x :: xs)
          = (x :: xs).take size
            :: chunkArrayLoop size fuel ((x :: xs).drop size) := rfl
      rw [heq] at hb
      rcases List.mem_cons.mp hb with rfl | hb'
      · simp only [List.length_take]
        exact Nat.min_le_left _ _
      · exact ih _ b hb'

/-- Every chunk produced by the chunking loop is a sublist of the input. -/
theorem chunkArrayLoop_sublist {size : Nat} :
    ∀ (fuel : Nat) (l : List α) (b : List α),
      b ∈ chunkArrayLoop size fuel l → b.Sublist l := by
  intro fuel
  induction fuel with
  | zero =>
    intro l b hb
    simp [chunkArrayLoop] at hb
  | succ fuel ih =>
    intro l b hb
    cases l with
    | nil => simp [chunkArrayLoop] at hb
    | cons x xs =>
      have heq : chunkArrayLoop size (fuel + 1) (x :: xs)
          = (x :: xs).take size
            :: chunkArrayLoop size fuel ((x :: xs).drop size) := rfl
      rw [heq] at hb
      rcases List.mem_cons.mp hb with rfl | hb'
      · exact List.take_sublist _ _
      · exact (ih _ b hb').trans (List.drop_sublist _ _)

/-- Parallel execution from an idle state: the peak in-flight count never
exceeds the batch size bound, and every batch fully drains before the
next. -/
theorem executeParallel_peak {maxPar : Nat}
    (outcome : String → Except String String) :
    ∀ (batches : List (List Task)) (s : ExecState),
      (∀ b ∈ batches, b.length ≤ maxPar ∧ (b.map Task.id).Nodup) →
      s.inFlight = [] → s.peak ≤ maxPar →
      (batches.foldl (fun st b => runParallelBatch outcome b st) s).peak
          ≤ maxPar ∧
        (batches.foldl (fun st b => runParallelBatch outcome b st)
          s).inFlight = [] := by
  intro batches
  induction batches with
  | nil =>
    intro s _ hifl hpk
    exact ⟨hpk, hifl⟩
  | cons b bs ih =>
    intro s hb hifl hpk
    have hstep : (b :: bs).foldl (fun st b => runParallelBatch outcome b st) s
        = bs.foldl (fun st b => runParallelBatch outcome b st)
            (runParallelBatch outcome b s) := rfl
    rw [hstep]
    obtain ⟨hlen, hnd⟩ := hb b (List.mem_cons_self _ _)
    have hfl1 : (launchAll b s).inFlight = b.map Task.id := by
      rw [launchAll_inFlight, hifl]
      rfl
    have hrun_ifl : (runParallelBatch outcome b s).inFlight = [] := by
      show (completeFold outcome (b.map Task.id) _).inFlight = []
      refine completeFold_drain outcome (b.map Task.id) _ ?_ hnd
      show (launchAll b s).inFlight = b.map Task.id
      exact hfl1
    have hrun_peak : (runParallelBatch outcome b s).peak ≤ maxPar := by
      show (completeFold outcome (b.map Task.id) _).peak ≤ maxPar
      rw [completeFold_peak]
      show max (launchAll b s).peak (launchAll b s).inFlight.length ≤ maxPar
      rw [launchAll_peak, hfl1, List.length_map]
      omega
    exact ih (runParallelBatch outcome b s)
      (fun b' hb' => hb b' (List.mem_cons_of_mem _ hb')) hrun_ifl hrun_peak

/-- C1 (amended): in parallel mode the in-flight count never exceeds the
configured limit (batches have at most `maxParallelTasks` tasks and drain
fully); in mixed mode the limit only gates whether a new batch launches at
all — every recorded batch launch happened while strictly fewer than the
limit were in flight, but the whole ready set launches at once, so the
in-flight count itself can exceed the limit. -/
theorem executePlan_concurrency_amended :
    (∀ (outcome : String → Except String String)
      (sched : Nat → List String) (cfg : Option Nat) (plan : TaskPlan)
      (b : Bool) (s' : ExecState),
      plan.strategy = .parallel → (idsOf plan.tasks).Nodup →
      executePlan outcome sched cfg plan = some (b, s') →
      s'.peak ≤ jsOr cfg 5) ∧
    (∀ (outcome : String → Except String String)
      (sched : Nat → List String) (cfg : Option Nat) (plan : TaskPlan)
      (b : Bool) (s' : ExecState),
      plan.strategy = .mixed → (idsOf plan.tasks).Nodup →
      (∀ t ∈ plan.tasks, t.status = .pending) →
      executePlan outcome sched cfg plan = some (b, s') →
      ∀ g ∈ s'.batchGates, g < jsOr cfg 5) := by
  constructor
  · intro outcome sched cfg plan b s' hstrat hnodup hrun
    simp only [executePlan, hstrat] at hrun
    have hs' : s' = executeParallel outcome (jsOr cfg 5) plan.tasks
        (initState plan.tasks) := by
      cases hrun
      rfl
    subst hs'
    have hbatch : ∀ bb ∈ createBatches plan.tasks (jsOr cfg 5),
        bb.length ≤ jsOr cfg 5 ∧ (bb.map Task.id).Nodup := by
      intro bb hbb
      exact ⟨chunkArrayLoop_length_le _ _ bb hbb,
        hnodup.sublist ((chunkArrayLoop_sublist _ _ bb hbb).map Task.id)⟩
    exact (executeParallel_peak outcome (createBatches plan.tasks
      (jsOr cfg 5)) (initState plan.tasks) hbatch rfl (Nat.zero_le _)).1
  · intro outcome sched cfg plan b s' hstrat hnodup hpend0 hrun
    have hlen : (initState plan.tasks).pendingIds.length
        = plan.tasks.length := by
      show (idsOf plan.tasks).length = _
      simp [idsOf]
    obtain ⟨s'', hrun'', hinv'', _, _⟩ :=
      @executeMixedLoop_spec plan.tasks (jsOr cfg 5) outcome sched hnodup
        (2 * plan.tasks.length + 1) 0 (initState plan.tasks)
        (@initState_inv plan.tasks (jsOr cfg 5) hnodup hpend0)
        (by rw [hlen]; simp [initState])
    simp only [executePlan, hstrat, hrun''] at hrun
    have hs' : s' = s'' := by
      cases hrun
      rfl
    subst hs'
    exact hinv''.gates_ok

/-- Witness for C1 (amended) at concrete plans: a two-task parallel plan
respects the bound, and the mixed deadlock example records only gates below
the limit. -/
theorem executePlan_concurrency_amended_witness :
    ((executePlan (fun _ => .ok "v") (fun _ => []) (some 5)
      { id := "p", originalRequest := "r", strategy := .parallel
        tasks := [{ id := "a", description := "A" },
                  { id := "b", description := "B" }] }).map
        (fun pr => pr.2.peak) = some 2 ∧ 2 ≤ jsOr (some 5) 5) ∧
    ∀ b s', executePlan (fun _ => .ok "v") (fun _ => []) (some 5)
        { id := "p", originalRequest := "r", strategy := .mixed
          tasks := [{ id := "a", description := "A" },
                    { id := "b", description := "B",
                      dependencies := ["ghost"] }] } = some (b, s') →
      ∀ g ∈ s'.batchGates, g < jsOr (some 5) 5 := by
  refine ⟨⟨by decide, by decide⟩, ?_⟩
  intro b s' hrun
  exact executePlan_concurrency_amended.2 (fun _ => .ok "v") (fun _ => [])
    (some 5)
    { id := "p", originalRequest := "r", strategy := .mixed
      tasks := [{ id := "a", description := "A" },
                { id := "b", description := "B",
                  dependencies := ["ghost"] }] } b s' rfl (by decide)
    (by intro t ht; fin_cases ht <;> rfl) hrun

/-- Counterexample to C1 as stated: six independent tasks under the default
limit 5 in mixed mode all launch together, so six tasks are simultaneously
`in_progress`. -/
theorem executePlan_concurrency_counterexample :
    ∃ pr, executePlan (fun _ => .ok "v") (fun _ => []) (some 5)
        { id := "p", originalRequest := "r", strategy := .mixed
          tasks := [{ id := "a", description := "" },
                    { id := "b", description := "" },
                    { id := "c", description := "" },
                    { id := "d", description := "" },
                    { id := "e", description := "" },
                    { id := "f", description := "" }] } = some pr ∧
      jsOr (some 5) 5 < pr.2.peak := by
  have h : (executePlan (fun _ => .ok "v") (fun _ => []) (some 5)
      { id := "p", originalRequest := "r", strategy := .mixed
        tasks := [{ id := "a", description := "" },
                  { id := "b", description := "" },
                  { id := "c", description := "" },
                  { id := "d", description := "" },
                  { id := "e", description := "" },
                  { id := "f", description := "" }] }).map
      (fun pr => pr.2.peak) = some 6 := by decide
  rcases Option.map_eq_some'.mp h with ⟨pr, hpr, hpeak⟩
  exact ⟨pr, hpr, by rw [show jsOr (some 5) 5 = 5 from rfl, hpeak]; omega⟩

/-- C2 (amended): in mixed mode no task is set `in_progress` before every
one of its declared dependencies has a recorded result — every recorded
launch event already contains all the task's dependency ids among the
result keys. Parallel mode gives no such guarantee. -/
theorem executePlan_mixed_launch_deps (outcome : String → Except String String)
    (sched : Nat → List String) (cfg : Option Nat) (plan : TaskPlan)
    (b : Bool) (s' : ExecState) (hstrat : plan.strategy = .mixed)
    (hnodup : (idsOf plan.tasks).Nodup)
    (hpend0 : ∀ t ∈ plan.tasks, t.status = .pending)
    (hrun : executePlan outcome sched cfg plan = some (b, s')) :
    ∀ p ∈ s'.launches, ∀ t ∈ plan.tasks, t.id = p.1 →
      ∀ d ∈ t.dependencies, d ∈ p.2 := by
  have hlen : (initState plan.tasks).pendingIds.length
      = plan.tasks.length := by
    show (idsOf plan.tasks).length = _
    simp [idsOf]
  obtain ⟨s'', hrun'', hinv'', _, _⟩ :=
    @executeMixedLoop_spec plan.tasks (jsOr cfg 5) outcome sched hnodup
      (2 * plan.tasks.length + 1) 0 (initState plan.tasks)
      (@initState_inv plan.tasks (jsOr cfg 5) hnodup hpend0)
      (by rw [hlen]; simp [initState])
  simp only [executePlan, hstrat, hrun''] at hrun
  have hs' : s' = s'' := by
    cases hrun
    rfl
  subst hs'
  exact hinv''.launches_ok

/-- Witness for C2 (amended) at the concrete two-task dependent plan: the
run returns a result and every recorded launch already held results for
all of the launched task's dependencies. -/
theorem executePlan_mixed_launch_deps_witness :
    ∃ pr, executePlan (fun _ => .ok "v") (fun _ => []) none
        { id := "p", originalRequest := "r", strategy := .mixed
          tasks := [{ id := "a", description := "A" },
                    { id := "b", description := "B",
                      dependencies := ["a"] }] } = some pr ∧
      ∀ p ∈ pr.2.launches, ∀ t ∈
          [({ id := "a", description := "A" } : Task),
           { id := "b", description := "B", dependencies := ["a"] }],
        t.id = p.1 → ∀ d ∈ t.dependencies, d ∈ p.2 := by
  obtain ⟨pr, hpr⟩ := Option.isSome_iff_exists.mp
    (show (executePlan (fun _ => .ok "v") (fun _ => []) none
      { id := "p", originalRequest := "r", strategy := .mixed
        tasks := [{ id := "a", description := "A" },
                  { id := "b", description := "B",
                    dependencies := ["a"] }] }).isSome by decide)
  exact ⟨pr, hpr,
    executePlan_mixed_launch_deps (fun _ => .ok "v") (fun _ => []) none
      { id := "p", originalRequest := "r", strategy := .mixed
        tasks := [{ id := "a", description := "A" },
                  { id := "b", description := "B", dependencies := ["a"] }] }
      pr.1 pr.2 rfl (by decide) (by intro t ht; fin_cases ht <;> rfl) hpr⟩

/-- Counterexample to C2 as stated: in a parallel-strategy plan the task
`b`, which declares a dependency on `a`, is launched in the first batch
with an empty results map — the launch event `("b", [])` records that `b`
was set `in_progress` while no result for `a` existed. -/
theorem executePlan_deps_counterexample :
    ∃ pr, executePlan (fun _ => .ok "v") (fun _ => []) (some 5)
        { id := "p", originalRequest := "r", strategy := .parallel
          tasks := [{ id := "b", description := "B",
                      dependencies := ["a"] },
                    { id := "a", description := "A" }] } = some pr ∧
      ("b", ([] : List String)) ∈ pr.2.launches ∧
      "a" ∈ ({ id := "b", description := "B",
               dependencies := ["a"] } : Task).dependencies ∧
      ("a" : String) ∉ ([] : List String) := by
  have h : (executePlan (fun _ => .ok "v") (fun _ => []) (some 5)
      { id := "p", originalRequest := "r", strategy := .parallel
        tasks := [{ id := "b", description := "B", dependencies := ["a"] },
                  { id := "a", description := "A" }] }).map
      (fun pr => pr.2.launches) = some [("b", []), ("a", [])] := by decide
  rcases Option.map_eq_some'.mp h with ⟨pr, hpr, hlaunch⟩
  refine ⟨pr, hpr, ?_, by simp, by simp⟩
  rw [hlaunch]
  simp

/-- C7: every mixed execution of an all-pending plan with unique ids
terminates — the loop returns a final state (the fuel marker standing for
an infinite poll is refuted) with nothing pending or in flight; every task
ends `completed`, `failed` or `skipped`; and every skipped task carries the
unmet-dependency/deadlock error and a `failedTasks` entry. -/
theorem executePlan_mixed_terminates (outcome : String → Except String String)
    (sched : Nat → List String) (cfg : Option Nat) (plan : TaskPlan)
    (hstrat : plan.strategy = .mixed)
    (hnodup : (idsOf plan.tasks).Nodup)
    (hpend0 : ∀ t ∈ plan.tasks, t.status = .pending) :
    ∃ b s', executePlan outcome sched cfg plan = some (b, s') ∧
      s'.pendingIds = [] ∧ s'.inFlight = [] ∧
      (∀ t ∈ plan.tasks,
        statusOf s' t.id = some .completed ∨
        statusOf s' t.id = some .failed ∨
        statusOf s' t.id = some .skipped) ∧
      ∀ id, statusOf s' id = some .skipped →
        errorOf s' id = some "Unmet dependencies or deadlock" ∧
        id ∈ s'.failedTasks := by
  have hlen : (initState plan.tasks).pendingIds.length
      = plan.tasks.length := by
    show (idsOf plan.tasks).length = _
    simp [idsOf]
  obtain ⟨s'', hrun'', hinv'', hp'', hi''⟩ :=
    @executeMixedLoop_spec plan.tasks (jsOr cfg 5) outcome sched hnodup
      (2 * plan.tasks.length + 1) 0 (initState plan.tasks)
      (@initState_inv plan.tasks (jsOr cfg 5) hnodup hpend0)
      (by rw [hlen]; simp [initState])
  refine ⟨s''.failedTasks.isEmpty, s'', ?_, hp'', hi'', ?_, hinv''.p_skipped⟩
  · simp only [executePlan, hstrat, hrun'']
  · intro t ht
    have hsome := hinv''.st_total t ht
    rcases hv : statusOf s'' t.id with _ | v
    · rw [hv] at hsome
      cases hsome
    · cases v with
      | pending =>
        have := hinv''.q_pending t.id hv
        rw [hp''] at this
        cases this
      | in_progress =>
        have := hinv''.r_inflight t.id hv
        rw [hi''] at this
        cases this
      | completed => exact Or.inl rfl
      | failed => exact Or.inr (Or.inl rfl)
      | skipped => exact Or.inr (Or.inr rfl)

/-- Witness for C7 at a concrete plan in which task `b`'s dependency can
never be satisfied while task `a` still executes: the run terminates, `a`
completes and `b` is skipped with the deadlock error. -/
theorem executePlan_mixed_terminates_witness :
    (∃ b s', executePlan (fun _ => .ok "v") (fun _ => []) none
        { id := "p", originalRequest := "r", strategy := .mixed
          tasks := [{ id := "a", description := "A" },
                    { id := "b", description := "B",
                      dependencies := ["ghost"] }] } = some (b, s') ∧
      s'.pendingIds = [] ∧ s'.inFlight = [] ∧
      (∀ t ∈ [({ id := "a", description := "A" } : Task),
              { id := "b", description := "B",
                dependencies := ["ghost"] }],
        statusOf s' t.id = some .completed ∨
        statusOf s' t.id = some .failed ∨
        statusOf s' t.id = some .skipped) ∧
      ∀ id, statusOf s' id = some .skipped →
        errorOf s' id = some "Unmet dependencies or deadlock" ∧
        id ∈ s'.failedTasks) ∧
    (executePlan (fun _ => .ok "v") (fun _ => []) none
      { id := "p", originalRequest := "r", strategy := .mixed
        tasks := [{ id := "a", description := "A" },
                  { id := "b", description := "B",
                    dependencies := ["ghost"] }] }).map
      (fun pr => (statusOf pr.2 "a", statusOf pr.2 "b"))
      = some (some .completed, some .skipped) := by
  constructor
  · exact executePlan_mixed_terminates (fun _ => .ok "v") (fun _ => []) none
      { id := "p", originalRequest := "r", strategy := .mixed
        tasks := [{ id := "a", description := "A" },
                  { id := "b", description := "B",
                    dependencies := ["ghost"] }] } rfl (by decide)
      (by intro t ht; fin_cases ht <;> rfl)
  · decide

/-! ## RLM Executor (`src/lib/rlm/executor.ts`)

The executor's only recursion is bookkeeping: every strategy issues leaf
calls through `makeRLMCall`, which consults the backend provider; no
strategy re-enters `processWithStrategy`. The backend is an oracle
`llm : List Char → Except String (List Char)`; wall-clock time is a
counter advanced after each provider call by a `tick` oracle indexed by the
call number, with `startTime = 0`, so the source's
`Date.now() - startTime` is the state's `now`. `JSON.parse` of the
decomposition answer is a `parse` oracle, as in the Planner model. The
concurrent `Promise.all` map phases are modelled sequentially: only the
multiset of trajectory entries and the first error are observable to the
verified claims, not their interleaving. -/

/-- Context variable values: strings, numbers, null and arrays — the
shapes the RLM code paths distinguish. -/
inductive RVal where
  | str (s : List Char)
  | num (n : Nat)
  | null
  | arr (elems : List RVal)

/-- Size estimate of a value (`getSize`): string length, array length
times 100, else the length of its serialized form (`"null"`, digits). -/
def getSize : RVal → Nat
  | .str s => s.length
  | .arr xs => xs.length * 100
  | .num n => (toString n).length
  | .null => 4

/-- Largest context variable (`findLargestVariable`): track the strictly
largest entry, return it only above the 1000-byte threshold. -/
def findLargestVariable (vars : List (String × RVal)) :
    Option (String × RVal) :=
  let pair := vars.foldl
    (fun (acc : Option (String × RVal) × Nat) kv =>
      if acc.2 < getSize kv.2 then (some kv, getSize kv.2) else acc)
    (none, 0)
  if 1000 < pair.2 then pair.1 else none

/-- Data chunking dispatch of the RLM executor (`chunkData`): strings use
semantic chunking at size 2000, arrays fixed-size chunking at 10, other
values stay whole. -/
def chunkData : RVal → List RVal
  | .str s => (chunkString ⟨.semantic, some 2000, none, none⟩ s).map .str
  | .arr xs => (chunkArray xs ⟨.fixedSize, some 10, none, none⟩).map .arr
  | v => [v]

mutual

/-- Value rendering for prompts (`serializeValue`): strings stay raw, other
values are JSON-rendered (escaping and the 2-space pretty-printing of the
source are not reproduced; rendered text only feeds the backend oracle). -/
def serializeValue : RVal → List Char
  | .str s => s
  | .num n => (toString n).data
  | .null => "null".data
  | .arr xs => '[' :: serializeVList xs ++ [']']

def serializeVList : List RVal → List Char
  | [] => []
  | [x] => serializeInner x
  | x :: y :: xs => serializeInner x ++ ',' :: serializeVList (y :: xs)

def serializeInner : RVal → List Char
  | .str s => '"' :: s ++ ['"']
  | v => serializeValue v

end

/-- Prompt assembly (`buildPromptWithContext`): the task text followed by
every context variable, truncating any serialized form beyond 5000
characters with an explicit marker. -/
def buildPromptWithContext (prompt : List Char)
    (vars : List (String × RVal)) : List Char :=
  prompt ++ "\n\n".data ++ "# Available Context:\n\n".data ++
    (vars.map (fun kv =>
      let valueStr := serializeValue kv.2
      "## ".data ++ kv.1.data ++ ":\n".data ++
        (if valueStr.length < 5000 then valueStr
         else valueStr.take 5000 ++ "... (truncated, ".data
           ++ (toString valueStr.length).data ++ " total chars)".data) ++
        "\n\n".data)).flatten

/-- Status of one recorded call. -/
inductive CallStatus where
  | running
  | completedCall
  | failedCall
deriving DecidableEq, Repr

/-- One recorded model invocation (`RLMCall`; the `nanoid` id is omitted,
the unused `callId` argument of `makeRLMCall` likewise never reaches the
record in the source). -/
structure RLMCall where
  prompt : List Char
  depth : Nat
  parentId : Option String
  status : CallStatus
  result : Option (List Char) := none
  error : Option String := none
  startTime : Nat
  endTime : Option Nat := none

/-- Mutable executor state: the trajectory list and the clock. -/
structure RlmState where
  trajectory : List RLMCall
  now : Nat

/-- Recursion context (`RLMContext`; provider credentials omitted — they
only select among identical call contracts). -/
structure RLMCtx where
  vars : List (String × RVal)
  currentDepth : Nat
  callStack : List String

/-- Effective limits after the constructor's falsy-or defaults
(`maxRecursionDepth || 10`, `maxExecutionTime || 300000`). -/
structure RLMConfig where
  maxRecursionDepth : Nat
  maxExecutionTime : Nat

/-- Constructor defaulting (`new RLMExecutor(config)`). -/
def mkRLMConfig (maxDepthCfg maxTimeCfg : Option Nat) : RLMConfig :=
  { maxRecursionDepth := jsOr maxDepthCfg 10
    maxExecutionTime := jsOr maxTimeCfg 300000 }

/-- The depth-limit error message. -/
def depthMsg (d : Nat) : String :=
  "Max recursion depth (" ++ toString d ++ ") exceeded"

/-- The time-limit error message. -/
def timeMsg (t : Nat) : String :=
  "Max execution time (" ++ toString t ++ "ms) exceeded"

/-- One model call (`makeRLMCall`): check the depth bound, then the
wall-clock deadline — both before any backend contact — then record the
call and consult the provider, logging success or failure either way. -/
def makeRLMCall (cfg : RLMConfig)
    (llm : List Char → Except String (List Char)) (tick : Nat → Nat)
    (prompt : List Char) (ctx : RLMCtx) (_callId : String) (s : RlmState) :
    Except String (List Char) × RlmState :=
  if cfg.maxRecursionDepth ≤ ctx.currentDepth then
    (.error (depthMsg cfg.maxRecursionDepth), s)
  else if cfg.maxExecutionTime ≤ s.now then
    (.error (timeMsg cfg.maxExecutionTime), s)
  else
    let call : RLMCall :=
      { prompt := prompt
        depth := ctx.currentDepth
        parentId := ctx.callStack.getLast?
        status := .running
        startTime := s.now }
    let fullPrompt := buildPromptWithContext prompt ctx.vars
    let dur := tick s.trajectory.length
    match llm fullPrompt with
    | .ok result =>
      (.ok result,
        { trajectory := s.trajectory ++
            [{ call with status := .completedCall
                         result := some result
                         endTime := some (s.now + dur) }]
          now := s.now + dur })
    | .error e =>
      (.error e,
        { trajectory := s.trajectory ++
            [{ call with status := .failedCall
                         error := some e
                         endTime := some (s.now + dur) }]
          now := s.now + dur })

/-- Lift a raw call result to the strategy result type (`null`-able). -/
def liftCall (r : Except String (List Char) × RlmState) :
    Except String (Option (List Char)) × RlmState :=
  (r.1.map some, r.2)

/-- Map-phase loop of `mapReduceStrategy`: one call per chunk, each seeing
its chunk, index and total (object-spread updates), at depth + 1. -/
def mapReduceFold (cfg : RLMConfig)
    (llm : List Char → Except String (List Char)) (tick : Nat → Nat)
    (task : List Char) (ctx : RLMCtx) (varName : String) (total : Nat) :
    List (Nat × RVal) → RlmState →
      Except String (List (List Char)) × RlmState
  | [], s => (.ok [], s)
  | (idx, chunk) :: rest, s =>
    let chunkCtx : RLMCtx :=
      { vars := setAssoc (setAssoc (setAssoc ctx.vars varName chunk)
          "chunk_index" (.num idx)) "total_chunks" (.num total)
        currentDepth := ctx.currentDepth + 1
        callStack := ctx.callStack ++ ["map-" ++ toString idx] }
    let mapTask := "Process this chunk of data for the task: ".data ++ task
      ++ "\n\nChunk ".data ++ (toString (idx + 1)).data ++ ['/']
      ++ (toString total).data
    match makeRLMCall cfg llm tick mapTask chunkCtx
        ("map-" ++ toString idx) s with
    | (.error e, s1) => (.error e, s1)
    | (.ok r, s1) =>
      match mapReduceFold cfg llm tick task ctx varName total rest s1 with
      | (.error e, s2) => (.error e, s2)
      | (.ok rs, s2) => (.ok (r :: rs), s2)

/-- Map-reduce strategy (`mapReduceStrategy`): below the chunking threshold
or with a single chunk, one direct call; otherwise map over the chunks and
issue a final reduce call over the chunk results. -/
def mapReduceStrategy (cfg : RLMConfig)
    (llm : List Char → Except String (List Char)) (tick : Nat → Nat)
    (task : List Char) (ctx : RLMCtx) (s : RlmState) :
    Except String (Option (List Char)) × RlmState :=
  match findLargestVariable ctx.vars with
  | none => liftCall (makeRLMCall cfg llm tick task ctx "direct-call" s)
  | some (varName, varData) =>
    let chunks := chunkData varData
    if chunks.length = 1 then
      liftCall (makeRLMCall cfg llm tick task ctx "direct-call" s)
    else
      match mapReduceFold cfg llm tick task ctx varName chunks.length
          chunks.enum s with
      | (.error e, s1) => (.error e, s1)
      | (.ok mapResults, s1) =>
        let reduceCtx : RLMCtx :=
          { vars := setAssoc ctx.vars "chunk_results"
              (.arr (mapResults.map .str))
            currentDepth := ctx.currentDepth + 1
            callStack := ctx.callStack ++ ["reduce"] }
        let reduceTask := "Aggregate these chunk results for the task: ".data
          ++ task ++ "\n\nYou have ".data
          ++ (toString mapResults.length).data
          ++ " chunk results to combine.".data
        liftCall (makeRLMCall cfg llm tick reduceTask reduceCtx "reduce" s1)

/-- Least-privilege variable filtering (`filterVariables`). -/
def filterVariables (vars : List (String × RVal)) (needs : List String) :
    List (String × RVal) :=
  needs.foldl
    (fun acc k =>
      match getAssoc vars k with
      | some v => acc ++ [(k, v)]
      | none => acc) []

/-- Subtask loop of `recursiveDecompositionStrategy`: one call per parsed
subtask, seeing only its declared needs, at depth + 1. -/
def subtaskFold (cfg : RLMConfig)
    (llm : List Char → Except String (List Char)) (tick : Nat → Nat)
    (ctx : RLMCtx) :
    List (Nat × (List Char × List String)) → RlmState →
      Except String (List (List Char)) × RlmState
  | [], s => (.ok [], s)
  | (idx, st) :: rest, s =>
    let subtaskCtx : RLMCtx :=
      { vars := filterVariables ctx.vars st.2
        currentDepth := ctx.currentDepth + 1
        callStack := ctx.callStack ++ ["subtask-" ++ toString idx] }
    match makeRLMCall cfg llm tick st.1 subtaskCtx
        ("subtask-" ++ toString idx) s with
    | (.error e, s1) => (.error e, s1)
    | (.ok r, s1) =>
      match subtaskFold cfg llm tick ctx rest s1 with
      | (.error e, s2) => (.error e, s2)
      | (.ok rs, s2) => (.ok (r :: rs), s2)

/-- Recursive-decomposition strategy
(`recursiveDecompositionStrategy`): always a decomposition call first; an
unparseable answer degrades to a single direct call; otherwise one call per
subtask followed by a combine call. -/
def recursiveDecompositionStrategy (cfg : RLMConfig)
    (llm : List Char → Except String (List Char)) (tick : Nat → Nat)
    (parse : List Char → Option (List (List Char × List String)))
    (task : List Char) (ctx : RLMCtx) (s : RlmState) :
    Except String (Option (List Char)) × RlmState :=
  let decompositionPrompt := "\nGiven this task: ".data ++ task
    ++ "\n\nAvailable context variables: ".data
    ++ (String.intercalate ", " (ctx.vars.map Prod.fst)).data
    ++ ("\n\nBreak this task into 2-5 independent subtasks that can be "
      ++ "solved separately and then combined.\nRespond with JSON array: "
      ++ "[\x7b \"subtask\": \"description\", \"needs\": [\"var1\", "
      ++ "\"var2\"] \x7d]\n").data
  match makeRLMCall cfg llm tick decompositionPrompt ctx "decompose" s with
  | (.error e, s1) => (.error e, s1)
  | (.ok decomposition, s1) =>
    match parse decomposition with
    | none => liftCall (makeRLMCall cfg llm tick task ctx "direct-call" s1)
    | some subtasks =>
      match subtaskFold cfg llm tick ctx subtasks.enum s1 with
      | (.error e, s2) => (.error e, s2)
      | (.ok subtaskResults, s2) =>
        let combineCtx : RLMCtx :=
          { vars := setAssoc ctx.vars "subtask_results"
              (.arr (subtaskResults.map .str))
            currentDepth := ctx.currentDepth + 1
            callStack := ctx.callStack ++ ["combine"] }
        let combineTask :=
          "Combine these subtask results to complete: ".data ++ task
        liftCall (makeRLMCall cfg llm tick combineTask combineCtx
          "combine" s2)

/-- Item loop of `sequentialProcessingStrategy`: each call sees its item,
the previous result (initially null) and its index, at depth + 1. -/
def seqFold (cfg : RLMConfig)
    (llm : List Char → Except String (List Char)) (tick : Nat → Nat)
    (task : List Char) (ctx : RLMCtx) (varName : String) (total : Nat) :
    List (Nat × RVal) → Option (List Char) → RlmState →
      Except String (Option (List Char)) × RlmState
  | [], acc, s => (.ok acc, s)
  | (i, item) :: rest, acc, s =>
    let itemCtx : RLMCtx :=
      { vars := setAssoc (setAssoc (setAssoc (setAssoc ctx.vars
          varName item) "previous_result"
            (match acc with | some r => .str r | none => .null))
          "item_index" (.num i)) "total_items" (.num total)
        currentDepth := ctx.currentDepth + 1
        callStack := ctx.callStack ++ ["seq-" ++ toString i] }
    let itemTask := task ++ "\n\nProcessing item ".data
      ++ (toString (i + 1)).data ++ ['/'] ++ (toString total).data
      ++ (if acc.isSome then ". Previous result available.".data else [])
    match makeRLMCall cfg llm tick itemTask itemCtx
        ("seq-" ++ toString i) s with
    | (.error e, s1) => (.error e, s1)
    | (.ok r, s1) =>
      seqFold cfg llm tick task ctx varName total rest (some r) s1

/-- Sequential-processing strategy (`sequentialProcessingStrategy`). -/
def sequentialProcessingStrategy (cfg : RLMConfig)
    (llm : List Char → Except String (List Char)) (tick : Nat → Nat)
    (task : List Char) (ctx : RLMCtx) (s : RlmState) :
    Except String (Option (List Char)) × RlmState :=
  match findLargestVariable ctx.vars with
  | none => liftCall (makeRLMCall cfg llm tick task ctx "direct-call" s)
  | some (varName, varData) =>
    let items := match varData with
      | .arr xs => xs
      | v => chunkData v
    seqFold cfg llm tick task ctx varName items.length items.enum none s

/-- Tree-traversal strategy (`treeTraversalStrategy`): a single annotated
direct call. -/
def treeTraversalStrategy (cfg : RLMConfig)
    (llm : List Char → Except String (List Char)) (tick : Nat → Nat)
    (task : List Char) (ctx : RLMCtx) (s : RlmState) :
    Except String (Option (List Char)) × RlmState :=
  liftCall (makeRLMCall cfg llm tick task ctx "tree-traversal" s)

/-- The four RLM strategies. -/
inductive ProcessingStrategy where
  | mapReduce
  | recursiveDecomposition
  | sequentialProcessing
  | treeTraversal
deriving DecidableEq, Repr

/-- Strategy dispatch (`processWithStrategy`). -/
def processWithStrategy (cfg : RLMConfig)
    (llm : List Char → Except String (List Char)) (tick : Nat → Nat)
    (parse : List Char → Option (List (List Char × List String)))
    (task : List Char) (ctx : RLMCtx) (strategy : ProcessingStrategy)
    (s : RlmState) : Except String (Option (List Char)) × RlmState :=
  match strategy with
  | .mapReduce => mapReduceStrategy cfg llm tick task ctx s
  | .recursiveDecomposition =>
    recursiveDecompositionStrategy cfg llm tick parse task ctx s
  | .sequentialProcessing =>
    sequentialProcessingStrategy cfg llm tick task ctx s
  | .treeTraversal => treeTraversalStrategy cfg llm tick task ctx s

/-- Trajectory summary (`buildTrajectory`). `Math.max` of an empty list is
negative infinity in JS, modelled as `none`. -/
structure RLMTrajectory where
  totalCalls : Nat
  maxDepth : Option Nat
  executionTime : Nat
  allCalls : List RLMCall

/-- Result record of `execute` (`RLMExecutionResult`). -/
structure RLMExecutionResult where
  success : Bool
  result : Option (List Char) := none
  error : Option String := none
  trajectory : RLMTrajectory
  executionTime : Nat

/-- Build the trajectory summary from the final state. -/
def buildTrajectory (s : RlmState) : RLMTrajectory :=
  { totalCalls := s.trajectory.length
    maxDepth := (s.trajectory.map RLMCall.depth).max?
    executionTime := s.now
    allCalls := s.trajectory }

/-- Initial recursion context of `execute`. -/
def initRLMCtx (vars : List (String × RVal)) : RLMCtx :=
  { vars := vars, currentDepth := 0, callStack := [] }

/-- Fresh state at the top of `execute` (`startTime = now = 0`). -/
def initRlmState : RlmState := { trajectory := [], now := 0 }

/-- Top-level RLM execution (`execute`): run the strategy; a thrown error
is caught and returned as a failure with the partial trajectory. -/
def execute (cfg : RLMConfig)
    (llm : List Char → Except String (List Char)) (tick : Nat → Nat)
    (parse : List Char → Option (List (List Char × List String)))
    (task : List Char) (vars : List (String × RVal))
    (strategy : ProcessingStrategy) : RLMExecutionResult :=
  match processWithStrategy cfg llm tick parse task (initRLMCtx vars)
      strategy initRlmState with
  | (.ok result, s1) =>
    { success := true
      result := result
      trajectory := buildTrajectory s1
      executionTime := s1.now }
  | (.error e, s1) =>
    { success := false
      error := some e
      trajectory := buildTrajectory s1
      executionTime := s1.now }

/-- Fixture backend: always answers. -/
def okLLM : List Char → Except String (List Char) := fun _ => .ok ['x']

/-- Fixture clock: every call takes one tick. -/
def oneTick : Nat → Nat := fun _ => 1

/-- Fixture parser: nothing parses. -/
def noParse : List Char → Option (List (List Char × List String)) :=
  fun _ => none

/-! ### RLM proof layer -/

lemma findLargest_foldl_le (vars : List (String × RVal))
    (hsmall : ∀ kv ∈ vars, getSize kv.2 ≤ 1000) :
    ∀ acc : Option (String × RVal) × Nat, acc.2 ≤ 1000 →
      (vars.foldl
        (fun acc kv =>
          if acc.2 < getSize kv.2 then (some kv, getSize kv.2) else acc)
        acc).2 ≤ 1000 := by
  induction vars with
  | nil => intro acc h; exact h
  | cons kv rest ih =>
    intro acc h
    simp only [List.foldl_cons]
    refine ih (fun x hx => hsmall x (List.mem_cons_of_mem _ hx)) _ ?_
    by_cases hc : acc.2 < getSize kv.2
    · simpa [hc] using hsmall kv (List.mem_cons_self _ _)
    · simpa [hc] using h

lemma findLargestVariable_none_of_small (vars : List (String × RVal))
    (hsmall : ∀ kv ∈ vars, getSize kv.2 ≤ 1000) :
    findLargestVariable vars = none := by
  unfold findLargestVariable
  have hb := findLargest_foldl_le vars hsmall (none, 0) (by decide)
  rw [if_neg (by omega)]

lemma makeRLMCall_traj_length (cfg : RLMConfig)
    (llm : List Char → Except String (List Char)) (tick : Nat → Nat)
    (prompt : List Char) (ctx : RLMCtx) (cid : String) (s : RlmState)
    (h1 : ctx.currentDepth < cfg.maxRecursionDepth)
    (h2 : s.now < cfg.maxExecutionTime) :
    ((makeRLMCall cfg llm tick prompt ctx cid s).2).trajectory.length =
      s.trajectory.length + 1 := by
  unfold makeRLMCall
  rw [if_neg (by omega), if_neg (by omega)]
  cases h : llm (buildPromptWithContext prompt ctx.vars) <;> simp [h]

lemma execute_trajectory_eq (cfg : RLMConfig)
    (llm : List Char → Except String (List Char)) (tick : Nat → Nat)
    (parse : List Char → Option (List (List Char × List String)))
    (task : List Char) (vars : List (String × RVal))
    (strategy : ProcessingStrategy) :
    (execute cfg llm tick parse task vars strategy).trajectory =
      buildTrajectory (processWithStrategy cfg llm tick parse task
        (initRLMCtx vars) strategy initRlmState).2 := by
  unfold execute
  rcases h : processWithStrategy cfg llm tick parse task (initRLMCtx vars)
      strategy initRlmState with ⟨r, s1⟩
  cases r <;> rfl

/-- C3 (amended). When no context variable exceeds the 1000-byte chunking
threshold and the configured limits leave room for at least one call, the
map-reduce, sequential-processing and tree-traversal strategies each make
exactly one model call (`trajectory.totalCalls = 1`). The
recursive-decomposition strategy is excluded: it always spends its first
call on decomposition, so it makes at least two calls (see the
counterexample). -/
theorem rlm_small_context_amended (cfg : RLMConfig)
    (llm : List Char → Except String (List Char)) (tick : Nat → Nat)
    (parse : List Char → Option (List (List Char × List String)))
    (task : List Char) (vars : List (String × RVal))
    (strategy : ProcessingStrategy)
    (hsmall : ∀ kv ∈ vars, getSize kv.2 ≤ 1000)
    (hdepth : 1 ≤ cfg.maxRecursionDepth)
    (htime : 1 ≤ cfg.maxExecutionTime)
    (hstrat : strategy = .mapReduce ∨ strategy = .sequentialProcessing ∨
      strategy = .treeTraversal) :
    (execute cfg llm tick parse task vars strategy).trajectory.totalCalls
      = 1 := by
  rw [execute_trajectory_eq]
  have hlarge : findLargestVariable (initRLMCtx vars).vars = none :=
    findLargestVariable_none_of_small vars hsmall
  have hone : ∀ prompt cid,
      ((makeRLMCall cfg llm tick prompt (initRLMCtx vars) cid
        initRlmState).2).trajectory.length = 1 := by
    intro prompt cid
    have := makeRLMCall_traj_length cfg llm tick prompt (initRLMCtx vars)
      cid initRlmState (by simpa [initRLMCtx] using hdepth)
      (by simpa [initRlmState] using htime)
    simpa [initRlmState] using this
  rcases hstrat with h | h | h <;> subst h
  · simp only [processWithStrategy, mapReduceStrategy, hlarge]
    exact hone task "direct-call"
  · simp only [processWithStrategy, sequentialProcessingStrategy, hlarge]
    exact hone task "direct-call"
  · exact hone task "tree-traversal"

/-- Closed witness for the amended C3: with empty context and default
limits, each of the three strategies makes exactly one call. -/
theorem rlm_small_context_amended_witness :
    (∀ kv ∈ ([] : List (String × RVal)), getSize kv.2 ≤ 1000) ∧
    1 ≤ (mkRLMConfig none none).maxRecursionDepth ∧
    1 ≤ (mkRLMConfig none none).maxExecutionTime ∧
    (execute (mkRLMConfig none none) okLLM oneTick noParse ['t'] []
      .mapReduce).trajectory.totalCalls = 1 ∧
    (execute (mkRLMConfig none none) okLLM oneTick noParse ['t'] []
      .sequentialProcessing).trajectory.totalCalls = 1 ∧
    (execute (mkRLMConfig none none) okLLM oneTick noParse ['t'] []
      .treeTraversal).trajectory.totalCalls = 1 :=
  ⟨by simp, by decide, by decide,
   rlm_small_context_amended _ _ _ _ _ _ _ (by simp) (by decide) (by decide)
     (Or.inl rfl),
   rlm_small_context_amended _ _ _ _ _ _ _ (by simp) (by decide) (by decide)
     (Or.inr (Or.inl rfl)),
   rlm_small_context_amended _ _ _ _ _ _ _ (by simp) (by decide) (by decide)
     (Or.inr (Or.inr rfl))⟩

/-- C3 counterexample. The recursive-decomposition strategy makes two
calls even on an empty (sub-threshold) context: the decomposition call is
issued unconditionally before any size check, and the unparseable answer
then degrades to a direct call — `totalCalls = 2`, refuting the claimed
`totalCalls == 1` for all four strategies. -/
theorem rlm_recursive_decomposition_counterexample :
    (execute (mkRLMConfig none none) okLLM oneTick noParse ['t'] []
      .recursiveDecomposition).trajectory.totalCalls = 2 := by decide

/-- C8 (amended). Resource-limit handling of the RLM executor: (1) a call
at depth ≥ maxRecursionDepth aborts with the max-recursion-depth message,
the state untouched, before any backend contact; (2) otherwise a call at
or past the wall-clock deadline aborts with the max-execution-time
message, likewise before any backend contact; (3) the two messages are
distinguishable for all limit values; (4) a strategy error makes `execute`
return success `false` with that error and the partial trajectory rather
than throwing; (5) however, a configured `maxRecursionDepth` of 0 is
falsy, so the constructor coerces it to the default 10 — the claim's
"maxRecursionDepth = 0 yields a depth-exceeded error" fails (see the
counterexample). -/
theorem rlm_resource_limit_amended :
    (∀ cfg llm tick prompt ctx cid s,
      cfg.maxRecursionDepth ≤ ctx.currentDepth →
      makeRLMCall cfg llm tick prompt ctx cid s =
        (.error (depthMsg cfg.maxRecursionDepth), s)) ∧
    (∀ cfg llm tick prompt ctx cid s,
      ctx.currentDepth < cfg.maxRecursionDepth →
      cfg.maxExecutionTime ≤ s.now →
      makeRLMCall cfg llm tick prompt ctx cid s =
        (.error (timeMsg cfg.maxExecutionTime), s)) ∧
    (∀ d t, depthMsg d ≠ timeMsg t) ∧
    (∀ cfg llm tick parse task vars strategy e s1,
      processWithStrategy cfg llm tick parse task (initRLMCtx vars)
        strategy initRlmState = (.error e, s1) →
      execute cfg llm tick parse task vars strategy =
        { success := false
          error := some e
          trajectory := buildTrajectory s1
          executionTime := s1.now }) ∧
    (mkRLMConfig (some 0) none).maxRecursionDepth = 10 := by
  refine ⟨?_, ?_, ?_, ?_, by decide⟩
  · intro cfg llm tick prompt ctx cid s h
    unfold makeRLMCall
    rw [if_pos h]
  · intro cfg llm tick prompt ctx cid s h1 h2
    unfold makeRLMCall
    rw [if_neg (by omega), if_pos h2]
  · intro d t h
    have h4 := congrArg (fun str : String => str.data[4]?) h
    simp only [depthMsg, timeMsg, String.data_append] at h4
    have hlen1 : (4 : Nat) <
        ((['M', 'a', 'x', ' ', 'r', 'e', 'c', 'u', 'r', 's', 'i', 'o', 'n',
          ' ', 'd', 'e', 'p', 't', 'h', ' ', '('] : List Char) ++
          (toString d).data).length := by
      rw [List.length_append]
      have h21 : ((['M', 'a', 'x', ' ', 'r', 'e', 'c', 'u', 'r', 's', 'i',
        'o', 'n', ' ', 'd', 'e', 'p', 't', 'h', ' ', '('] :
          List Char)).length = 21 := by decide
      omega
    have hlen2 : (4 : Nat) <
        ((['M', 'a', 'x', ' ', 'e', 'x', 'e', 'c', 'u', 't', 'i', 'o', 'n',
          ' ', 't', 'i', 'm', 'e', ' ', '('] : List Char) ++
          (toString t).data).length := by
      rw [List.length_append]
      have h20 : ((['M', 'a', 'x', ' ', 'e', 'x', 'e', 'c', 'u', 't', 'i',
        'o', 'n', ' ', 't', 'i', 'm', 'e', ' ', '('] :
          List Char)).length = 20 := by decide
      omega
    rw [List.getElem?_append_left hlen1, List.getElem?_append_left hlen2,
        List.getElem?_append_left
          (show (4 : Nat) < (['M', 'a', 'x', ' ', 'r', 'e', 'c', 'u', 'r',
            's', 'i', 'o', 'n', ' ', 'd', 'e', 'p', 't', 'h', ' ', '('] :
              List Char).length by decide),
        List.getElem?_append_left
          (show (4 : Nat) < (['M', 'a', 'x', ' ', 'e', 'x', 'e', 'c', 'u',
            't', 'i', 'o', 'n', ' ', 't', 'i', 'm', 'e', ' ', '('] :
              List Char).length by decide)]
      at h4
    exact absurd h4 (by decide)
  · intro cfg llm tick parse task vars strategy e s1 h
    unfold execute
    rw [h]

/-- Closed witness for the amended C8: a depth-limited call aborts with
the depth message and unchanged state; a deadline-expired call aborts with
the time message; the two messages differ at the defaults; a real depth
abort (limit 1, one oversized array variable forcing a depth-1 map call)
surfaces through `execute` as success `false` with the error and the
(empty) partial trajectory; and a configured 0 depth becomes 10. -/
theorem rlm_resource_limit_amended_witness :
    makeRLMCall ⟨0, 99⟩ okLLM oneTick ['p'] (initRLMCtx []) "c"
        initRlmState = (.error (depthMsg 0), initRlmState) ∧
    makeRLMCall ⟨5, 7⟩ okLLM oneTick ['p'] (initRLMCtx []) "c" ⟨[], 7⟩ =
      (.error (timeMsg 7), ⟨[], 7⟩) ∧
    depthMsg 10 ≠ timeMsg 300000 ∧
    execute (mkRLMConfig (some 1) none) okLLM oneTick noParse ['t']
        [("a", .arr (List.replicate 11 .null))] .mapReduce =
      { success := false
        error := some (depthMsg 1)
        trajectory := buildTrajectory initRlmState
        executionTime := initRlmState.now } ∧
    (mkRLMConfig (some 0) none).maxRecursionDepth = 10 :=
  ⟨rlm_resource_limit_amended.1 ⟨0, 99⟩ okLLM oneTick ['p'] (initRLMCtx [])
     "c" initRlmState (by decide),
   rlm_resource_limit_amended.2.1 ⟨5, 7⟩ okLLM oneTick ['p'] (initRLMCtx [])
     "c" ⟨[], 7⟩ (by decide) (by decide),
   rlm_resource_limit_amended.2.2.1 10 300000,
   rlm_resource_limit_amended.2.2.2.1 (mkRLMConfig (some 1) none) okLLM
     oneTick noParse ['t'] [("a", .arr (List.replicate 11 .null))]
     .mapReduce (depthMsg 1) initRlmState rfl,
   rlm_resource_limit_amended.2.2.2.2⟩

/-- C8 counterexample. Configuring `maxRecursionDepth = 0` does NOT yield
a depth-exceeded error: `0` is falsy, the constructor's falsy-or installs
the default 10, and a small-context map-reduce run succeeds. -/
theorem rlm_depth_zero_counterexample :
    (mkRLMConfig (some 0) none).maxRecursionDepth = 10 ∧
    (execute (mkRLMConfig (some 0) none) okLLM oneTick noParse ['t'] []
      .mapReduce).success = true ∧
    (execute (mkRLMConfig (some 0) none) okLLM oneTick noParse ['t'] []
      .mapReduce).error = none := by
  refine ⟨by decide, by decide, by decide⟩

end CoWork
